import Mathlib

/-!
# Verification of the universal graph library (`src/lib/universal/graph.ts`)

Shallow embedding of the directed-graph toolkit: DFS cycle detection
(`dagIsCyclicalDFS`), cycle enumeration (`dagCyclesDFS`), topological sort
(`dagTopologicalSortDFS`), dependency partitioning (`dagDependencies`) and the
PlantUML diagram exporter (`graphPlantUmlDiagram`).

JavaScript `Set<NodeID>` values become `Finset NodeID`; the recursive DFS
closures become fuel-indexed functions returning `Option` (with `none` on fuel
exhaustion); the `for … of` loops over edge lists with early `return` become
structural recursion over `List` with short-circuiting.  The TypeScript edge fields
`from`/`to` are rendered `frm`/`tgt` (both are Lean keywords).
-/

namespace GraphLib

/-- An edge of the graph: `from` and `to` nodes, rendered `frm` and `tgt` (both are Lean keywords). -/
structure Edge (Node : Type) where
  frm : Node
  tgt : Node
deriving DecidableEq, Repr

/-- A graph: a list of nodes and a list of edges. -/
structure Graph (Node : Type) where
  nodes : List Node
  edges : List (Edge Node)
deriving DecidableEq, Repr

/-- One cycle record produced by `dagCyclesDFS`. -/
structure CycleRec (Node : Type) where
  cycleNodes : List Node
  cycleEdges : List (Edge Node)
deriving DecidableEq, Repr

/-- Result of `dagDependencies`. -/
structure DepsResult (Node : Type) where
  dependencies : List Node
  dependents : List Node
deriving DecidableEq, Repr

variable {Node NodeID : Type} [DecidableEq NodeID]

/-- The step relation of a graph: there is an edge from `a` to `b`. -/
def GStep (G : Graph Node) (a b : Node) : Prop :=
  ∃ e, e ∈ G.edges ∧ e.frm = a ∧ e.tgt = b

/-- The graph contains a directed cycle: some node has a nonempty
edge path back to itself. -/
def GraphCyclic (G : Graph Node) : Prop :=
  ∃ a, Relation.TransGen (GStep G) a a

/-- All node identities that any DFS in this library can ever enter:
identities of listed nodes and of edge targets. -/
def allNodeIds (G : Graph Node) (identity : Node → NodeID) : Finset NodeID :=
  ((G.nodes ++ G.edges.map Edge.tgt).map identity).toFinset

/-- Fuel that strictly dominates the number of distinct identities a DFS can
visit, hence suffices for every recursion in this file. -/
def dfsFuel (G : Graph Node) : Nat :=
  G.nodes.length + G.edges.length + 1

/-! ## `dagIsCyclicalDFS` (graph.ts lines 34–72) -/

/-- The edge loop of `dagIsCyclicalDFS`'s inner `dagDFS`:
`for (const edge of graph.edges) { if (compare(edge.from, node) === 0) { … } }`
with the two cycle checks, followed by `recursionStack.delete(nodeId); return
false`.  `dfs` is the recursive call at one less fuel. -/
def dagDFSEdges (identity : Node → NodeID) (compare : Node → Node → Int)
    (dfs : Node → Finset NodeID → Finset NodeID →
      Option (Bool × Finset NodeID × Finset NodeID))
    (node : Node) :
    List (Edge Node) → Finset NodeID → Finset NodeID →
      Option (Bool × Finset NodeID × Finset NodeID)
  | [], visited, recStack => some (false, visited, recStack.erase (identity node))
  | e :: rest, visited, recStack =>
    if compare e.frm node = 0 then
      if identity e.tgt ∈ visited then
        -- `!visited.has(…)` fails; fall to `else if (recursionStack.has(…))`
        if identity e.tgt ∈ recStack then some (true, visited, recStack)
        else dagDFSEdges identity compare dfs node rest visited recStack
      else
        match dfs e.tgt visited recStack with
        | none => none
        | some (b2, v2, r2) =>
          if b2 then some (b2, v2, r2)
          -- recursion reported no cycle; `else if (recursionStack.has(…))`
          else if identity e.tgt ∈ r2 then some (true, v2, r2)
          else dagDFSEdges identity compare dfs node rest v2 r2
    else dagDFSEdges identity compare dfs node rest visited recStack

/-- The inner `dagDFS` of `dagIsCyclicalDFS`: mark the node visited and on the
recursion stack, then run the edge loop. -/
def dagDFS (G : Graph Node) (identity : Node → NodeID)
    (compare : Node → Node → Int) :
    Nat → Node → Finset NodeID → Finset NodeID →
      Option (Bool × Finset NodeID × Finset NodeID)
  | 0, _, _, _ => none
  | fuel + 1, node, visited, recStack =>
    dagDFSEdges identity compare (dagDFS G identity compare fuel) node G.edges
      (insert (identity node) visited) (insert (identity node) recStack)

/-- The outer loop of `dagIsCyclicalDFS`:
`for (const node of graph.nodes) { if (dagDFS(node, …)) return true; }` —
note: no visited check before the call. -/
def dagIsCyclicalGo (G : Graph Node) (identity : Node → NodeID)
    (compare : Node → Node → Int) :
    List Node → Finset NodeID → Finset NodeID → Option Bool
  | [], _, _ => some false
  | n :: ns, visited, recStack =>
    match dagDFS G identity compare (dfsFuel G) n visited recStack with
    | none => none
    | some (b2, v2, r2) =>
      if b2 then some true
      else dagIsCyclicalGo G identity compare ns v2 r2

/-- `dagIsCyclicalDFS(graph, identity, compare)`. -/
def dagIsCyclicalDFS (G : Graph Node) (identity : Node → NodeID)
    (compare : Node → Node → Int) : Bool :=
  (dagIsCyclicalGo G identity compare G.nodes ∅ ∅).getD false

/-! ## `dagTopologicalSortDFS` (graph.ts lines 142–172) -/

/-- Edge loop of the topological sort's `dagDFS`: recurse into unvisited
matched neighbours. -/
def topoEdges (identity : Node → NodeID) (compare : Node → Node → Int)
    (dfs : Node → Finset NodeID → List Node →
      Option (Finset NodeID × List Node))
    (node : Node) :
    List (Edge Node) → Finset NodeID → List Node →
      Option (Finset NodeID × List Node)
  | [], visited, stack => some (visited, stack)
  | e :: rest, visited, stack =>
    if compare e.frm node = 0 then
      if identity e.tgt ∈ visited then
        topoEdges identity compare dfs node rest visited stack
      else
        match dfs e.tgt visited stack with
        | none => none
        | some (v2, s2) => topoEdges identity compare dfs node rest v2 s2
    else topoEdges identity compare dfs node rest visited stack

/-- Inner `dagDFS` of `dagTopologicalSortDFS`: mark visited, recurse into
neighbours, then `stack.push(node)`. -/
def topoDFS (G : Graph Node) (identity : Node → NodeID)
    (compare : Node → Node → Int) :
    Nat → Node → Finset NodeID → List Node →
      Option (Finset NodeID × List Node)
  | 0, _, _, _ => none
  | fuel + 1, node, visited, stack =>
    match topoEdges identity compare (topoDFS G identity compare fuel) node
        G.edges (insert (identity node) visited) stack with
    | none => none
    | some (v2, s2) => some (v2, s2 ++ [node])

/-- Outer loop of `dagTopologicalSortDFS` (this one does skip visited
nodes). -/
def topoGo (G : Graph Node) (identity : Node → NodeID)
    (compare : Node → Node → Int) :
    List Node → Finset NodeID → List Node →
      Option (Finset NodeID × List Node)
  | [], visited, stack => some (visited, stack)
  | n :: ns, visited, stack =>
    if identity n ∈ visited then topoGo G identity compare ns visited stack
    else
      match topoDFS G identity compare (dfsFuel G) n visited stack with
      | none => none
      | some (v2, s2) => topoGo G identity compare ns v2 s2

/-- `dagTopologicalSortDFS(graph, identity, compare)`: DFS postorder stack,
reversed. -/
def dagTopologicalSortDFS (G : Graph Node) (identity : Node → NodeID)
    (compare : Node → Node → Int) : List Node :=
  (((topoGo G identity compare G.nodes ∅ []).getD (∅, [])).2).reverse

/-! ## `dagCyclesDFS` (graph.ts lines 80–136) -/

/-- Edge loop of `dagCyclesDFS`'s inner `dagDFS`: push the edge, explore the
neighbour, pop the edge when no cycle was signalled (`cycleEdges.pop()` is
only reached on the fall-through paths in the source). -/
def cycEdges (identity : Node → NodeID) (compare : Node → Node → Int)
    (dfs : Node → Finset NodeID → Finset NodeID → List Node →
      List (Edge Node) →
      Option (Bool × Finset NodeID × Finset NodeID × List Node ×
        List (Edge Node)))
    (node : Node) :
    List (Edge Node) → Finset NodeID → Finset NodeID → List Node →
      List (Edge Node) →
      Option (Bool × Finset NodeID × Finset NodeID × List Node ×
        List (Edge Node))
  | [], visited, recStack, cns, ces => some (false, visited, recStack, cns, ces)
  | e :: rest, visited, recStack, cns, ces =>
    if compare e.frm node = 0 then
      if identity e.tgt ∈ visited then
        if identity e.tgt ∈ recStack then
          some (true, visited, recStack, cns, ces ++ [e])
        else
          cycEdges identity compare dfs node rest visited recStack cns
            ((ces ++ [e]).dropLast)
      else
        match dfs e.tgt visited recStack cns (ces ++ [e]) with
        | none => none
        | some (b2, v2, r2, cn2, ce2) =>
          if b2 then some (b2, v2, r2, cn2, ce2)
          else cycEdges identity compare dfs node rest v2 r2 cn2 ce2.dropLast
    else cycEdges identity compare dfs node rest visited recStack cns ces

/-- Inner `dagDFS` of `dagCyclesDFS`: mark visited/on-stack, push the node on
`cycleNodes`, run the edge loop; on fall-through remove from the recursion
stack and pop `cycleNodes`. -/
def cycDFS (G : Graph Node) (identity : Node → NodeID)
    (compare : Node → Node → Int) :
    Nat → Node → Finset NodeID → Finset NodeID → List Node →
      List (Edge Node) →
      Option (Bool × Finset NodeID × Finset NodeID × List Node ×
        List (Edge Node))
  | 0, _, _, _, _, _ => none
  | fuel + 1, node, visited, recStack, cns, ces =>
    match cycEdges identity compare (cycDFS G identity compare fuel) node
        G.edges (insert (identity node) visited)
        (insert (identity node) recStack) (cns ++ [node]) ces with
    | none => none
    | some (b2, v2, r2, cn2, ce2) =>
      if b2 then some (b2, v2, r2, cn2, ce2)
      else some (false, v2, r2.erase (identity node), cn2.dropLast, ce2)

/-- Outer loop of `dagCyclesDFS`: fresh `cycleNodes`/`cycleEdges` per
unvisited root; push one record when that root's DFS signals a cycle. -/
def cycGo (G : Graph Node) (identity : Node → NodeID)
    (compare : Node → Node → Int) :
    List Node → Finset NodeID → Finset NodeID → List (CycleRec Node) →
      Option (List (CycleRec Node))
  | [], _, _, acc => some acc
  | n :: ns, visited, recStack, acc =>
    if identity n ∈ visited then cycGo G identity compare ns visited recStack acc
    else
      match cycDFS G identity compare (dfsFuel G) n visited recStack [] [] with
      | none => none
      | some (b2, v2, r2, cn2, ce2) =>
        if b2 then cycGo G identity compare ns v2 r2 (acc ++ [⟨cn2, ce2⟩])
        else cycGo G identity compare ns v2 r2 acc

/-- `dagCyclesDFS(graph, identity, compare)`. -/
def dagCyclesDFS (G : Graph Node) (identity : Node → NodeID)
    (compare : Node → Node → Int) : List (CycleRec Node) :=
  (cycGo G identity compare G.nodes ∅ ∅ []).getD []

/-! ## `dagDependencies` (graph.ts lines 180–232) -/

/-- The `nodeIndex` map of `dagDependencies`, as an association list with
JavaScript `Map` overwrite semantics (the last `set` for a key wins, so the
list is built reversed and searched front-to-back). -/
def depsIndex (identity : Node → NodeID) (T : List Node) :
    List (NodeID × Nat) :=
  (T.enum.map (fun p => (identity p.2, p.1))).reverse

/-- First-match association lookup (`Map.get`). -/
def assocFind : List (NodeID × Nat) → NodeID → Option Nat
  | [], _ => none
  | p :: rest, k => if p.1 = k then some p.2 else assocFind rest k

/-- The final loop of `dagDependencies`: classify each not-yet-visited graph
node by the comparator sign against the target. -/
def depsRest (identity : Node → NodeID) (compare : Node → Node → Int)
    (target : Node) (vis : Finset NodeID) :
    List Node → List Node × List Node → List Node × List Node
  | [], acc => acc
  | n :: ns, acc =>
    depsRest identity compare target vis ns
      (if identity n ∈ vis then acc
       else if compare n target < 0 then (acc.1 ++ [n], acc.2)
       else if 0 < compare n target then (acc.1, acc.2 ++ [n])
       else acc)

/-- `dagDependencies(graph, identity, compare, topologicalSortSupplier,
targetNode)`. -/
def dagDependencies (G : Graph Node) (identity : Node → NodeID)
    (compare : Node → Node → Int)
    (ts : Graph Node → (Node → NodeID) → (Node → Node → Int) → List Node)
    (target : Node) : DepsResult Node :=
  let T := ts G identity compare
  match assocFind (depsIndex identity T) (identity target) with
  | some ti =>
    let vis : Finset NodeID :=
      ((T.take ti).map identity).toFinset ∪
        ((T.drop (ti + 1)).map identity).toFinset
    let pr := depsRest identity compare target vis G.nodes
      ((T.take ti).reverse, T.drop (ti + 1))
    ⟨pr.1, pr.2⟩
  | none =>
    let pr := depsRest identity compare target ∅ G.nodes ([], [])
    ⟨pr.1, pr.2⟩

/-! ## `graphPlantUmlDiagram` (graph.ts lines 262–295) -/

/-- Node label configuration: `{ text, features? }`. -/
structure PumlNode where
  text : String
  features : Option String
deriving DecidableEq, Repr

/-- Edge label configuration: `{ fromText, toText, features? }`. -/
structure PumlEdge where
  fromText : String
  toText : String
  features : Option String
deriving DecidableEq, Repr

/-- `features ? \` ${features}\` : ""` with JavaScript truthiness (both
`undefined` and the empty string are falsy). -/
def featSuffix : Option String → String
  | none => ""
  | some f => if f = "" then "" else " " ++ f

/-- `graphPlantUmlDiagram(graph, pumlOptions)`. -/
def graphPlantUmlDiagram (G : Graph Node) (nodeFn : Node → PumlNode)
    (edgeFn : Edge Node → PumlEdge) : String :=
  let nodeLines := G.nodes.map fun n =>
    (nodeFn n).text ++ featSuffix (nodeFn n).features
  let edgeLines := G.edges.map fun e =>
    (edgeFn e).fromText ++ " --> " ++ (edgeFn e).toText ++
      featSuffix (edgeFn e).features
  "@startuml\n" ++ String.intercalate "\n" nodeLines ++ "\n" ++
    String.intercalate "\n" edgeLines ++ "\n@enduml"


/-! ## Basic invariants of the `dagIsCyclicalDFS` recursion -/

theorem dagDFSEdges_mono (identity : Node → NodeID) (compare : Node → Node → Int)
    (dfs : Node → Finset NodeID → Finset NodeID →
      Option (Bool × Finset NodeID × Finset NodeID))
    (node : Node)
    (Hdfs : ∀ m V R res, dfs m V R = some res → V ⊆ res.2.1) :
    ∀ es V R res, dagDFSEdges identity compare dfs node es V R = some res →
      V ⊆ res.2.1 := by
  intro es
  induction es with
  | nil =>
    intro V R res h
    simp only [dagDFSEdges] at h
    cases h
    exact Finset.Subset.refl _
  | cons e rest ih =>
    intro V R res h
    simp only [dagDFSEdges] at h
    split at h
    · split at h
      · split at h
        · cases h; exact Finset.Subset.refl _
        · exact ih V R res h
      · rcases hd : dfs e.tgt V R with _ | ⟨b2, v2, r2⟩
        · rw [hd] at h; cases h
        · rw [hd] at h
          have hmV : V ⊆ v2 := Hdfs _ _ _ _ hd
          cases b2
          · simp only [Bool.false_eq_true, if_false] at h
            split at h
            · cases h; exact hmV
            · exact hmV.trans (ih v2 r2 res h)
          · simp only [if_true] at h
            cases h; exact hmV
    · exact ih V R res h

theorem dagDFS_mono (G : Graph Node) (identity : Node → NodeID)
    (compare : Node → Node → Int) :
    ∀ fuel n V R res, dagDFS G identity compare fuel n V R = some res →
      insert (identity n) V ⊆ res.2.1 := by
  intro fuel
  induction fuel with
  | zero => intro n V R res h; cases h
  | succ fuel ih =>
    intro n V R res h
    simp only [dagDFS] at h
    exact dagDFSEdges_mono identity compare _ n
      (fun m V' R' res' h' => (Finset.subset_insert _ _).trans (ih m V' R' res' h'))
      G.edges _ _ res h

theorem dagDFS_mono' (G : Graph Node) (identity : Node → NodeID)
    (compare : Node → Node → Int) (fuel : Nat) (n : Node)
    (V R : Finset NodeID) (res : Bool × Finset NodeID × Finset NodeID)
    (h : dagDFS G identity compare fuel n V R = some res) :
    V ⊆ res.2.1 :=
  (Finset.subset_insert _ _).trans (dagDFS_mono G identity compare fuel n V R res h)

/-- On a `false` return the recursion stack is exactly restored (minus the
current node), and it stays inside `visited`. -/
theorem dagDFSEdges_restore (identity : Node → NodeID)
    (compare : Node → Node → Int)
    (dfs : Node → Finset NodeID → Finset NodeID →
      Option (Bool × Finset NodeID × Finset NodeID))
    (node : Node)
    (Hmono : ∀ m V R res, dfs m V R = some res → V ⊆ res.2.1)
    (Hdfs : ∀ m V R res, dfs m V R = some res → R ⊆ V →
      res.2.2 ⊆ res.2.1 ∧ (res.1 = false → res.2.2 = R.erase (identity m))) :
    ∀ es V R res, dagDFSEdges identity compare dfs node es V R = some res →
      R ⊆ V →
      res.2.2 ⊆ res.2.1 ∧ (res.1 = false → res.2.2 = R.erase (identity node)) := by
  intro es
  induction es with
  | nil =>
    intro V R res h hRV
    simp only [dagDFSEdges] at h
    cases h
    exact ⟨(Finset.erase_subset _ _).trans hRV, fun _ => rfl⟩
  | cons e rest ih =>
    intro V R res h hRV
    simp only [dagDFSEdges] at h
    split at h
    · split at h
      · split at h
        · cases h; exact ⟨hRV, fun hb => by cases hb⟩
        · exact ih V R res h hRV
      · rename_i hnv
        rcases hd : dfs e.tgt V R with _ | ⟨b2, v2, r2⟩
        · rw [hd] at h; cases h
        · rw [hd] at h
          have hmV : V ⊆ v2 := Hmono _ _ _ _ hd
          have hsub := Hdfs _ _ _ _ hd hRV
          cases b2
          · have hr2 : r2 = R.erase (identity e.tgt) := hsub.2 rfl
            have hr2R : r2 = R := by
              rw [hr2, Finset.erase_eq_of_not_mem (fun hc => hnv (hRV hc))]
            simp only [Bool.false_eq_true, if_false] at h
            split at h
            · cases h; exact ⟨hsub.1, fun hb => by cases hb⟩
            · rw [hr2R] at h
              exact ih v2 R res h (hRV.trans hmV)
          · simp only [if_true] at h
            cases h; exact ⟨hsub.1, fun hb => by cases hb⟩
    · exact ih V R res h hRV

theorem dagDFS_restore (G : Graph Node) (identity : Node → NodeID)
    (compare : Node → Node → Int) :
    ∀ fuel n V R res, dagDFS G identity compare fuel n V R = some res →
      R ⊆ V →
      res.2.2 ⊆ res.2.1 ∧ (res.1 = false → res.2.2 = R.erase (identity n)) := by
  intro fuel
  induction fuel with
  | zero => intro n V R res h; cases h
  | succ fuel ih =>
    intro n V R res h hRV
    simp only [dagDFS] at h
    have := dagDFSEdges_restore identity compare _ n
      (fun m V' R' res' h' => dagDFS_mono' G identity compare fuel m V' R' res' h')
      ih G.edges _ _ res h
      (Finset.insert_subset_insert _ hRV)
    refine ⟨this.1, fun hb => ?_⟩
    rw [this.2 hb, Finset.erase_insert_eq_erase]

/-- With fuel exceeding the number of never-yet-visited reachable identities,
the DFS cannot run out. -/
theorem dagDFSEdges_isSome (identity : Node → NodeID)
    (compare : Node → Node → Int)
    (dfs : Node → Finset NodeID → Finset NodeID →
      Option (Bool × Finset NodeID × Finset NodeID))
    (node : Node) (G : Graph Node) (V0 : Finset NodeID)
    (Hmono : ∀ m V R res, dfs m V R = some res → V ⊆ res.2.1)
    (Hdfs : ∀ m V R, V0 ⊆ V → identity m ∉ V →
      (∃ e ∈ G.edges, e.tgt = m) → (dfs m V R).isSome) :
    ∀ es V R, (∀ e ∈ es, e ∈ G.edges) → V0 ⊆ V →
      (dagDFSEdges identity compare dfs node es V R).isSome := by
  intro es
  induction es with
  | nil => intro V R _ _; simp [dagDFSEdges]
  | cons e rest ih =>
    intro V R hes hV0
    have heG : e ∈ G.edges := hes e (List.mem_cons_self _ _)
    have hrest : ∀ e' ∈ rest, e' ∈ G.edges :=
      fun e' he' => hes e' (List.mem_cons_of_mem _ he')
    simp only [dagDFSEdges]
    split
    · split
      · split
        · simp
        · exact ih V R hrest hV0
      · rename_i hnv
        have hd := Hdfs e.tgt V R hV0 hnv ⟨e, heG, rfl⟩
        rcases hdd : dfs e.tgt V R with _ | ⟨b2, v2, r2⟩
        · rw [hdd] at hd; cases hd
        · have hmV : V ⊆ v2 := Hmono _ _ _ _ hdd
          cases b2
          · simp only [Bool.false_eq_true, if_false]
            split
            · simp
            · exact ih v2 r2 hrest (hV0.trans hmV)
          · simp
    · exact ih V R hrest hV0

theorem dagDFS_isSome (G : Graph Node) (identity : Node → NodeID)
    (compare : Node → Node → Int) :
    ∀ fuel n V R,
      (allNodeIds G identity \ insert (identity n) V).card < fuel →
      (dagDFS G identity compare fuel n V R).isSome := by
  intro fuel
  induction fuel with
  | zero => intro n V R h; omega
  | succ fuel ih =>
    intro n V R hcard
    simp only [dagDFS]
    refine dagDFSEdges_isSome identity compare _ n G (insert (identity n) V)
      (fun m V' R' res' h' => dagDFS_mono' G identity compare fuel m V' R' res' h')
      ?_ G.edges _ _ (fun e he => he) (Finset.Subset.refl _)
    intro m V' R' hVV' hm hedge
    refine ih m V' R' ?_
    have hmem : identity m ∈ allNodeIds G identity \ insert (identity n) V := by
      refine Finset.mem_sdiff.2 ⟨?_, fun hc => hm (hVV' hc)⟩
      obtain ⟨e, he, hem⟩ := hedge
      simp only [allNodeIds, List.mem_toFinset, List.mem_map]
      exact ⟨e.tgt, by
        simp only [List.mem_append, List.mem_map]
        exact Or.inr ⟨e, he, rfl⟩, by rw [hem]⟩
    have hsub : allNodeIds G identity \ insert (identity m) V' ⊆
        (allNodeIds G identity \ insert (identity n) V).erase (identity m) := by
      intro x hx
      have hx' := Finset.mem_sdiff.1 hx
      refine Finset.mem_erase.2 ⟨?_, Finset.mem_sdiff.2 ⟨hx'.1, ?_⟩⟩
      · intro hxm; exact hx'.2 (hxm ▸ Finset.mem_insert_self _ _)
      · intro hc; exact hx'.2 (Finset.mem_insert_of_mem (hVV' hc))
    have h1 := Finset.card_le_card hsub
    have h2 := Finset.card_erase_of_mem hmem
    have h3 : 0 < (allNodeIds G identity \ insert (identity n) V).card :=
      Finset.card_pos.2 ⟨_, hmem⟩
    omega


/-! ## Soundness: a `true` answer exhibits a directed cycle -/

theorem dagDFSEdges_sound (G : Graph Node) (identity : Node → NodeID)
    (compare : Node → Node → Int)
    (dfs : Node → Finset NodeID → Finset NodeID →
      Option (Bool × Finset NodeID × Finset NodeID))
    (node : Node)
    (Hend : ∀ e ∈ G.edges, e.frm ∈ G.nodes ∧ e.tgt ∈ G.nodes)
    (Hinj : ∀ a ∈ G.nodes, ∀ b ∈ G.nodes, identity a = identity b → a = b)
    (Hcmp : ∀ a b, compare a b = 0 ↔ identity a = identity b)
    (Hmono : ∀ m V R res, dfs m V R = some res → V ⊆ res.2.1)
    (Hrest : ∀ m V R res, dfs m V R = some res → R ⊆ V →
      res.2.2 ⊆ res.2.1 ∧ (res.1 = false → res.2.2 = R.erase (identity m)))
    (Hsound : ∀ m V R res, dfs m V R = some res → m ∈ G.nodes → R ⊆ V →
      (∀ i ∈ R, ∃ x, x ∈ G.nodes ∧ identity x = i ∧
        Relation.ReflTransGen (GStep G) x m) →
      res.1 = true → GraphCyclic G) :
    ∀ es V R res, (∀ e ∈ es, e ∈ G.edges) →
      dagDFSEdges identity compare dfs node es V R = some res →
      node ∈ G.nodes → R ⊆ V →
      (∀ i ∈ R, ∃ x, x ∈ G.nodes ∧ identity x = i ∧
        Relation.ReflTransGen (GStep G) x node) →
      res.1 = true → GraphCyclic G := by
  intro es
  induction es with
  | nil =>
    intro V R res hes h hn hRV hR htrue
    simp only [dagDFSEdges] at h
    cases h
    cases htrue
  | cons e rest ih =>
    intro V R res hes h hn hRV hR htrue
    have heG := hes e (List.mem_cons_self _ _)
    have hrest := fun e' he' => hes e' (List.mem_cons_of_mem _ he')
    simp only [dagDFSEdges] at h
    split at h
    · rename_i hc
      have hfrm : e.frm = node := Hinj _ (Hend e heG).1 _ hn ((Hcmp _ _).1 hc)
      split at h
      · rename_i hv
        split at h
        · rename_i hrr
          obtain ⟨x, hxn, hxi, hxr⟩ := hR _ hrr
          have hx : x = e.tgt := Hinj _ hxn _ (Hend e heG).2 hxi
          refine ⟨e.tgt, Relation.TransGen.tail' ?_ ⟨e, heG, hfrm, rfl⟩⟩
          rw [← hx]; exact hxr
        · exact ih V R res hrest h hn hRV hR htrue
      · rename_i hnv
        rcases hd : dfs e.tgt V R with _ | ⟨b2, v2, r2⟩
        · rw [hd] at h; cases h
        · rw [hd] at h
          cases b2
          · simp only [Bool.false_eq_true, if_false] at h
            have hsub := Hrest _ _ _ _ hd hRV
            have hr2 : r2 = R := by
              have h2 : r2 = R.erase (identity e.tgt) := hsub.2 rfl
              rw [h2, Finset.erase_eq_of_not_mem (fun hcc => hnv (hRV hcc))]
            split at h
            · rename_i hin
              rw [hr2] at hin
              exact absurd (hRV hin) hnv
            · rw [hr2] at h
              exact ih v2 R res hrest h hn (hRV.trans (Hmono _ _ _ _ hd)) hR htrue
          · refine Hsound _ _ _ _ hd (Hend e heG).2 hRV ?_ rfl
            intro i hi
            obtain ⟨x, hxn, hxi, hxr⟩ := hR i hi
            exact ⟨x, hxn, hxi, hxr.tail ⟨e, heG, hfrm, rfl⟩⟩
    · exact ih V R res hrest h hn hRV hR htrue

theorem dagDFS_sound (G : Graph Node) (identity : Node → NodeID)
    (compare : Node → Node → Int)
    (Hend : ∀ e ∈ G.edges, e.frm ∈ G.nodes ∧ e.tgt ∈ G.nodes)
    (Hinj : ∀ a ∈ G.nodes, ∀ b ∈ G.nodes, identity a = identity b → a = b)
    (Hcmp : ∀ a b, compare a b = 0 ↔ identity a = identity b) :
    ∀ fuel n V R res, dagDFS G identity compare fuel n V R = some res →
      n ∈ G.nodes → R ⊆ V →
      (∀ i ∈ R, ∃ x, x ∈ G.nodes ∧ identity x = i ∧
        Relation.ReflTransGen (GStep G) x n) →
      res.1 = true → GraphCyclic G := by
  intro fuel
  induction fuel with
  | zero => intro n V R res h; cases h
  | succ fuel ih =>
    intro n V R res h hn hRV hR htrue
    simp only [dagDFS] at h
    refine dagDFSEdges_sound G identity compare _ n Hend Hinj Hcmp
      (fun m V' R' res' h' => dagDFS_mono' G identity compare fuel m V' R' res' h')
      (fun m V' R' res' h' => dagDFS_restore G identity compare fuel m V' R' res' h')
      ih G.edges _ _ res (fun e he => he) h hn
      (Finset.insert_subset_insert _ hRV) ?_ htrue
    intro i hi
    rcases Finset.mem_insert.1 hi with hi | hi
    · exact ⟨n, hn, hi.symm, Relation.ReflTransGen.refl⟩
    · obtain ⟨x, hxn, hxi, hxr⟩ := hR i hi
      exact ⟨x, hxn, hxi, hxr⟩

theorem dagIsCyclicalGo_sound (G : Graph Node) (identity : Node → NodeID)
    (compare : Node → Node → Int)
    (Hend : ∀ e ∈ G.edges, e.frm ∈ G.nodes ∧ e.tgt ∈ G.nodes)
    (Hinj : ∀ a ∈ G.nodes, ∀ b ∈ G.nodes, identity a = identity b → a = b)
    (Hcmp : ∀ a b, compare a b = 0 ↔ identity a = identity b) :
    ∀ ns V, (∀ x ∈ ns, x ∈ G.nodes) →
      dagIsCyclicalGo G identity compare ns V ∅ = some true → GraphCyclic G := by
  intro ns
  induction ns with
  | nil => intro V _ h; simp [dagIsCyclicalGo] at h
  | cons n ns ih =>
    intro V hns h
    simp only [dagIsCyclicalGo] at h
    rcases hd : dagDFS G identity compare (dfsFuel G) n V ∅ with _ | ⟨b2, v2, r2⟩
    · rw [hd] at h; cases h
    · rw [hd] at h
      cases b2
      · simp only [Bool.false_eq_true, if_false] at h
        have hr2 : r2 = ∅ := by
          have h2 := (dagDFS_restore G identity compare _ _ _ _ _ hd
            (Finset.empty_subset _)).2 rfl
          simpa [Finset.erase_empty] using h2
        rw [hr2] at h
        exact ih v2 (fun x hx => hns x (List.mem_cons_of_mem _ hx)) h
      · exact dagDFS_sound G identity compare Hend Hinj Hcmp _ _ _ _ _ hd
          (hns n (List.mem_cons_self _ _)) (Finset.empty_subset _)
          (fun i hi => absurd hi (Finset.not_mem_empty _)) rfl

/-! ## Completeness: a fully-`false` run yields a rank witness of acyclicity -/

/-- The finish-order invariant: every matched edge out of a finished identity
points to an identity finished strictly earlier. -/
def RankOK (G : Graph Node) (identity : Node → NodeID) (L : List NodeID) :
    Prop :=
  ∀ p (hp : p < L.length) e, e ∈ G.edges → identity e.frm = L[p] →
    ∃ q, ∃ hq : q < L.length, q < p ∧ L[q] = identity e.tgt

theorem indexOf_le_of_getElem {α : Type} [DecidableEq α] :
    ∀ (L : List α) (a : α) (q : Nat) (hq : q < L.length),
      L[q] = a → L.indexOf a ≤ q := by
  intro L
  induction L with
  | nil => intro a q hq _; exact absurd hq (Nat.not_lt_zero q)
  | cons x xs ih =>
    intro a q hq hget
    cases q with
    | zero =>
      simp only [List.getElem_cons_zero] at hget
      subst hget
      simp [List.indexOf_cons_self]
    | succ q' =>
      by_cases hxa : x = a
      · subst hxa; simp [List.indexOf_cons_self]
      · have hxs := ih a q' (by simpa using hq)
          (by simpa using hget)
        rw [List.indexOf_cons_ne _ hxa]
        omega

theorem rankOK_not_cyclic (G : Graph Node) (identity : Node → NodeID)
    (F : List NodeID)
    (Hend : ∀ e ∈ G.edges, e.frm ∈ G.nodes ∧ e.tgt ∈ G.nodes)
    (hcov : ∀ x ∈ G.nodes, identity x ∈ F)
    (hF : RankOK G identity F) : ¬ GraphCyclic G := by
  have hstep : ∀ x y, GStep G x y →
      F.indexOf (identity y) < F.indexOf (identity x) := by
    rintro x y ⟨e, he, hf, ht⟩
    have hxn : x ∈ G.nodes := hf ▸ (Hend e he).1
    have hmem : identity x ∈ F := hcov x hxn
    have hp : F.indexOf (identity x) < F.length := List.indexOf_lt_length.2 hmem
    have hget : F[F.indexOf (identity x)] = identity x := List.getElem_indexOf hp
    obtain ⟨q, hq, hqp, hqv⟩ := hF (F.indexOf (identity x)) hp e he
      (by rw [hget, hf])
    have hle := indexOf_le_of_getElem F (identity e.tgt) q hq hqv
    rw [ht] at hle
    omega
  have htrans : ∀ x y, Relation.TransGen (GStep G) x y →
      F.indexOf (identity y) < F.indexOf (identity x) := by
    intro x y h
    induction h with
    | single h => exact hstep _ _ h
    | tail _ h ih => exact (hstep _ _ h).trans ih
  rintro ⟨a, ha⟩
  exact lt_irrefl _ (htrans a a ha)

/-- Edge loop when every matched neighbour is already visited and off the
recursion stack: the state passes through untouched. -/
theorem dagDFSEdges_allVisited (identity : Node → NodeID)
    (compare : Node → Node → Int)
    (dfs : Node → Finset NodeID → Finset NodeID →
      Option (Bool × Finset NodeID × Finset NodeID))
    (node : Node) :
    ∀ es (V R : Finset NodeID),
      (∀ e ∈ es, compare e.frm node = 0 →
        identity e.tgt ∈ V ∧ identity e.tgt ∉ R) →
      dagDFSEdges identity compare dfs node es V R =
        some (false, V, R.erase (identity node)) := by
  intro es
  induction es with
  | nil => intro V R _; rfl
  | cons e rest ih =>
    intro V R hes
    simp only [dagDFSEdges]
    by_cases hc : compare e.frm node = 0
    · rw [if_pos hc]
      obtain ⟨hv, hr⟩ := hes e (List.mem_cons_self _ _) hc
      rw [if_pos hv, if_neg hr]
      exact ih V R (fun e' he' hc' => hes e' (List.mem_cons_of_mem _ he') hc')
    · rw [if_neg hc]
      exact ih V R (fun e' he' hc' => hes e' (List.mem_cons_of_mem _ he') hc')

/-- Entering an already-finished node with an empty recursion stack is a
no-op returning `false` (this is why the missing visited check in the outer
loop of `dagIsCyclicalDFS` is harmless). -/
theorem dagDFS_visited (G : Graph Node) (identity : Node → NodeID)
    (compare : Node → Node → Int)
    (Hcmp : ∀ a b, compare a b = 0 ↔ identity a = identity b) :
    ∀ fuel n V res F, dagDFS G identity compare fuel n V ∅ = some res →
      identity n ∈ V → V = F.toFinset → RankOK G identity F →
      res = (false, V, ∅) := by
  intro fuel
  cases fuel with
  | zero => intro n V res F h; cases h
  | succ fuel =>
    intro n V res F h hnV hVF hF
    simp only [dagDFS] at h
    rw [Finset.insert_eq_self.2 hnV] at h
    have hkey : ∀ e ∈ G.edges, compare e.frm n = 0 →
        identity e.tgt ∈ V ∧
          identity e.tgt ∉ insert (identity n) (∅ : Finset NodeID) := by
      intro e he hc
      have hfrm : identity e.frm = identity n := (Hcmp _ _).1 hc
      have hmemF : identity n ∈ F := by
        rw [hVF] at hnV; exact List.mem_toFinset.1 hnV
      have hp : F.indexOf (identity n) < F.length :=
        List.indexOf_lt_length.2 hmemF
      have hget : F[F.indexOf (identity n)] = identity n :=
        List.getElem_indexOf hp
      obtain ⟨q, hq, hqp, hqv⟩ := hF _ hp e he (by rw [hget]; exact hfrm)
      constructor
      · rw [hVF]
        refine List.mem_toFinset.2 ?_
        rw [← hqv]
        exact List.getElem_mem hq
      · simp only [Finset.mem_insert, Finset.not_mem_empty, or_false]
        intro heq
        have hle := indexOf_le_of_getElem F (identity n) q hq (by rw [hqv, heq])
        omega
    rw [dagDFSEdges_allVisited identity compare _ n G.edges V _ hkey] at h
    rw [Finset.erase_insert (Finset.not_mem_empty _)] at h
    injection h with h
    exact h.symm


omit [DecidableEq NodeID] in
theorem rankOK_nil (G : Graph Node) (identity : Node → NodeID) :
    RankOK G identity [] := by
  intro p hp
  simp at hp

omit [DecidableEq NodeID] in
theorem rankOK_snoc (G : Graph Node) (identity : Node → NodeID)
    (L : List NodeID) (x : NodeID) (hL : RankOK G identity L)
    (hx : ∀ e ∈ G.edges, identity e.frm = x → identity e.tgt ∈ L) :
    RankOK G identity (L ++ [x]) := by
  intro p hp e he hfrm
  by_cases hpL : p < L.length
  · rw [List.getElem_append_left hpL] at hfrm
    obtain ⟨q, hq, hqp, hqv⟩ := hL p hpL e he hfrm
    refine ⟨q, ?_, hqp, ?_⟩
    · simp only [List.length_append, List.length_cons, List.length_nil]; omega
    · rw [List.getElem_append_left hq]; exact hqv
  · have hpe : p = L.length := by
      simp only [List.length_append, List.length_cons, List.length_nil] at hp
      omega
    rw [List.getElem_concat_length L x p hpe] at hfrm
    obtain ⟨q, hq, hqv⟩ := List.mem_iff_getElem.1 (hx e he hfrm)
    refine ⟨q, ?_, by omega, ?_⟩
    · simp only [List.length_append, List.length_cons, List.length_nil]; omega
    · rw [List.getElem_append_left hq]; exact hqv

theorem dagDFSEdges_rank (G : Graph Node) (identity : Node → NodeID)
    (compare : Node → Node → Int)
    (dfs : Node → Finset NodeID → Finset NodeID →
      Option (Bool × Finset NodeID × Finset NodeID))
    (node : Node)
    (Hcmp : ∀ a b, compare a b = 0 ↔ identity a = identity b)
    (Hdfs : ∀ m V R res F, dfs m V R = some res → identity m ∉ V →
      V = R ∪ F.toFinset → RankOK G identity F → res.1 = false →
      ∃ Fd, RankOK G identity (F ++ Fd) ∧ identity m ∈ Fd ∧
        res.2.1 = R ∪ (F ++ Fd).toFinset ∧ res.2.2 = R) :
    ∀ es V R res F, (∀ e ∈ es, e ∈ G.edges) →
      dagDFSEdges identity compare dfs node es V R = some res →
      V = R ∪ F.toFinset → identity node ∈ R → RankOK G identity F →
      res.1 = false →
      ∃ Fd, RankOK G identity (F ++ Fd) ∧
        res.2.1 = R ∪ (F ++ Fd).toFinset ∧
        res.2.2 = R.erase (identity node) ∧
        (∀ e ∈ es, identity e.frm = identity node →
          identity e.tgt ∈ F ++ Fd) := by
  intro es
  induction es with
  | nil =>
    intro V R res F _ h hVF hnR hF _
    simp only [dagDFSEdges] at h
    cases h
    exact ⟨[], by simpa using hF, by simpa using hVF, rfl, by simp⟩
  | cons e rest ih =>
    intro V R res F hes h hVF hnR hF hfalse
    have heG := hes e (List.mem_cons_self _ _)
    have hesr := fun e' he' => hes e' (List.mem_cons_of_mem _ he')
    simp only [dagDFSEdges] at h
    split at h
    · rename_i hc
      split at h
      · rename_i hv
        split at h
        · cases h; cases hfalse
        · rename_i hrr
          have hvF : identity e.tgt ∈ F := by
            rw [hVF] at hv
            rcases Finset.mem_union.1 hv with hv | hv
            · exact absurd hv hrr
            · exact List.mem_toFinset.1 hv
          obtain ⟨Fd, hRank, hres1, hres2, hkey⟩ :=
            ih V R res F hesr h hVF hnR hF hfalse
          refine ⟨Fd, hRank, hres1, hres2, ?_⟩
          intro e' he' hf'
          rcases List.mem_cons.1 he' with he' | he'
          · subst he'; exact List.mem_append_left _ hvF
          · exact hkey e' he' hf'
      · rename_i hnv
        rcases hd : dfs e.tgt V R with _ | ⟨b2, v2, r2⟩
        · rw [hd] at h; cases h
        · rw [hd] at h
          cases b2
          · simp only [Bool.false_eq_true, if_false] at h
            obtain ⟨Fd1, hRank1, hmem1, hv2, hr2⟩ :=
              Hdfs e.tgt V R (false, v2, r2) F hd hnv hVF hF rfl
            simp only at hv2 hr2
            split at h
            · rename_i hin
              rw [hr2] at hin
              exact absurd (hVF ▸ Finset.mem_union_left _ hin) hnv
            · rw [hr2] at h
              obtain ⟨Fd2, hRank2, hres1, hres2, hkey2⟩ :=
                ih v2 R res (F ++ Fd1) hesr h hv2 hnR hRank1 hfalse
              rw [List.append_assoc] at hRank2 hres1 hkey2
              refine ⟨Fd1 ++ Fd2, hRank2, hres1, hres2, ?_⟩
              intro e' he' hf'
              rcases List.mem_cons.1 he' with he' | he'
              · subst he'
                exact List.mem_append_right _ (List.mem_append_left _ hmem1)
              · exact hkey2 e' he' hf'
          · simp only [if_true] at h
            cases h; cases hfalse
    · rename_i hc
      obtain ⟨Fd, hRank, hres1, hres2, hkey⟩ :=
        ih V R res F hesr h hVF hnR hF hfalse
      refine ⟨Fd, hRank, hres1, hres2, ?_⟩
      intro e' he' hf'
      rcases List.mem_cons.1 he' with he' | he'
      · subst he'; exact absurd ((Hcmp _ _).2 hf') hc
      · exact hkey e' he' hf'

theorem dagDFS_rank (G : Graph Node) (identity : Node → NodeID)
    (compare : Node → Node → Int)
    (Hcmp : ∀ a b, compare a b = 0 ↔ identity a = identity b) :
    ∀ fuel n V R res F, dagDFS G identity compare fuel n V R = some res →
      identity n ∉ V → V = R ∪ F.toFinset → RankOK G identity F →
      res.1 = false →
      ∃ Fd, RankOK G identity (F ++ Fd) ∧ identity n ∈ Fd ∧
        res.2.1 = R ∪ (F ++ Fd).toFinset ∧ res.2.2 = R := by
  intro fuel
  induction fuel with
  | zero => intro n V R res F h; cases h
  | succ fuel ih =>
    intro n V R res F h hnV hVF hF hfalse
    simp only [dagDFS] at h
    have hVF1 : insert (identity n) V =
        insert (identity n) R ∪ F.toFinset := by
      rw [hVF, Finset.insert_union]
    obtain ⟨Fd, hRank, hres1, hres2, hkey⟩ :=
      dagDFSEdges_rank G identity compare _ n Hcmp ih G.edges _ _ res F
        (fun e he => he) h hVF1 (Finset.mem_insert_self _ _) hF hfalse
    have hnR : identity n ∉ R := fun hc =>
      hnV (hVF ▸ Finset.mem_union_left _ hc)
    refine ⟨Fd ++ [identity n], ?_, ?_, ?_, ?_⟩
    · rw [← List.append_assoc]
      exact rankOK_snoc G identity (F ++ Fd) (identity n) hRank hkey
    · exact List.mem_append_right _ (List.mem_singleton.2 rfl)
    · rw [hres1]
      ext x
      simp only [Finset.mem_union, Finset.mem_insert, List.mem_toFinset,
        List.mem_append, List.mem_singleton]
      tauto
    · rw [hres2, Finset.erase_insert_eq_erase,
        Finset.erase_eq_of_not_mem hnR]

theorem dagIsCyclicalGo_isSome (G : Graph Node) (identity : Node → NodeID)
    (compare : Node → Node → Int) :
    ∀ ns V R, (dagIsCyclicalGo G identity compare ns V R).isSome := by
  have hbound : ∀ (S : Finset NodeID),
      (allNodeIds G identity \ S).card < dfsFuel G := by
    intro S
    have h1 : (allNodeIds G identity \ S).card ≤ (allNodeIds G identity).card :=
      Finset.card_le_card (Finset.sdiff_subset)
    have h2 : (allNodeIds G identity).card ≤
        ((G.nodes ++ G.edges.map Edge.tgt).map identity).length :=
      List.toFinset_card_le _
    have h3 : ((G.nodes ++ G.edges.map Edge.tgt).map identity).length =
        G.nodes.length + G.edges.length := by simp
    simp only [dfsFuel]
    omega
  intro ns
  induction ns with
  | nil => intro V R; simp [dagIsCyclicalGo]
  | cons n ns ih =>
    intro V R
    have hs := dagDFS_isSome G identity compare (dfsFuel G) n V R (hbound _)
    simp only [dagIsCyclicalGo]
    rcases hd : dagDFS G identity compare (dfsFuel G) n V R with _ | ⟨b2, v2, r2⟩
    · rw [hd] at hs; simp at hs
    · cases b2
      · simp only [Bool.false_eq_true, if_false]
        exact ih v2 r2
      · simp

theorem dagIsCyclicalGo_rank (G : Graph Node) (identity : Node → NodeID)
    (compare : Node → Node → Int)
    (Hcmp : ∀ a b, compare a b = 0 ↔ identity a = identity b) :
    ∀ ns V F, dagIsCyclicalGo G identity compare ns V ∅ = some false →
      V = F.toFinset → RankOK G identity F →
      ∃ Fd, RankOK G identity (F ++ Fd) ∧
        ∀ x ∈ ns, identity x ∈ F ++ Fd := by
  intro ns
  induction ns with
  | nil =>
    intro V F _ _ hF
    exact ⟨[], by simpa using hF, by simp⟩
  | cons n ns ih =>
    intro V F h hVF hF
    simp only [dagIsCyclicalGo] at h
    rcases hd : dagDFS G identity compare (dfsFuel G) n V ∅ with _ | ⟨b2, v2, r2⟩
    · rw [hd] at h; cases h
    · rw [hd] at h
      cases b2
      · simp only [Bool.false_eq_true, if_false] at h
        by_cases hnv : identity n ∈ V
        · have hres := dagDFS_visited G identity compare Hcmp _ n V _ F hd
            hnv hVF hF
          simp only [Prod.mk.injEq, true_and] at hres
          rw [hres.1, hres.2] at h
          obtain ⟨Fd, hRank, hcov⟩ := ih V F h hVF hF
          refine ⟨Fd, hRank, ?_⟩
          intro x hx
          rcases List.mem_cons.1 hx with hx | hx
          · subst hx
            exact List.mem_append_left _ (List.mem_toFinset.1 (hVF ▸ hnv))
          · exact hcov x hx
        · obtain ⟨Fd1, hRank1, hmem1, hv2, hr2⟩ :=
            dagDFS_rank G identity compare Hcmp _ n V ∅ (false, v2, r2) F hd
              hnv (by rw [Finset.empty_union, hVF]) hF rfl
          simp only at hv2 hr2
          rw [hr2] at h
          obtain ⟨Fd2, hRank2, hcov2⟩ := ih v2 (F ++ Fd1) h
            (by rw [hv2, Finset.empty_union]) hRank1
          rw [List.append_assoc] at hRank2 hcov2
          refine ⟨Fd1 ++ Fd2, hRank2, ?_⟩
          intro x hx
          rcases List.mem_cons.1 hx with hx | hx
          · subst hx
            exact List.mem_append_right _ (List.mem_append_left _ hmem1)
          · exact hcov2 x hx
      · simp only [if_true] at h
        cases h

/-- Claim C1: with edge endpoints in the node list, an injective identity and
a comparator whose zero agrees with identity equality, `dagIsCyclicalDFS`
returns `false` on acyclic graphs and `true` on graphs with a directed
cycle. -/
theorem dagIsCyclicalDFS_correct (G : Graph Node) (identity : Node → NodeID)
    (compare : Node → Node → Int)
    (Hend : ∀ e ∈ G.edges, e.frm ∈ G.nodes ∧ e.tgt ∈ G.nodes)
    (Hinj : ∀ a ∈ G.nodes, ∀ b ∈ G.nodes, identity a = identity b → a = b)
    (Hcmp : ∀ a b, compare a b = 0 ↔ identity a = identity b) :
    (¬ GraphCyclic G → dagIsCyclicalDFS G identity compare = false) ∧
    (GraphCyclic G → dagIsCyclicalDFS G identity compare = true) := by
  have hsome := dagIsCyclicalGo_isSome G identity compare G.nodes ∅ ∅
  rcases hgo : dagIsCyclicalGo G identity compare G.nodes ∅ ∅ with _ | b
  · rw [hgo] at hsome; simp at hsome
  · cases b
    · obtain ⟨Fd, hF, hcov⟩ := dagIsCyclicalGo_rank G identity compare Hcmp
        G.nodes ∅ [] hgo (by simp) (rankOK_nil G identity)
      have hnc := rankOK_not_cyclic G identity ([] ++ Fd) Hend hcov hF
      exact ⟨fun _ => by simp [dagIsCyclicalDFS, hgo],
        fun hc => absurd hc hnc⟩
    · have hc := dagIsCyclicalGo_sound G identity compare Hend Hinj Hcmp
        G.nodes ∅ (fun x hx => hx) hgo
      exact ⟨fun hnc => absurd hc hnc,
        fun _ => by simp [dagIsCyclicalDFS, hgo]⟩

/-- Witness for C1 at the one-node self-loop graph. -/
theorem dagIsCyclicalDFS_correct_witness :
    dagIsCyclicalDFS (⟨[0], [⟨0, 0⟩]⟩ : Graph Nat) (fun n => n)
      (fun a b => (a : Int) - b) = true :=
  (dagIsCyclicalDFS_correct ⟨[0], [⟨0, 0⟩]⟩ (fun n => n)
    (fun a b => (a : Int) - b)
    (by rintro e he; simp only [List.mem_singleton] at he; subst he
        exact ⟨by simp, by simp⟩)
    (fun a _ b _ h => h)
    (by intro a b; show (a : Int) - b = 0 ↔ a = b; omega)).2
    ⟨0, Relation.TransGen.single ⟨⟨0, 0⟩, List.mem_singleton.2 rfl, rfl, rfl⟩⟩


/-! ## Claim C9: reference algorithm with a skipping outer loop -/

/-- Modelled from the spec: "depth-first search from every node not yet
visited" — the reference outer loop that skips any start node already in the
visited set (the inner DFS is shared). -/
def dagIsCyclicalGoRef (G : Graph Node) (identity : Node → NodeID)
    (compare : Node → Node → Int) :
    List Node → Finset NodeID → Finset NodeID → Option Bool
  | [], _, _ => some false
  | n :: ns, visited, recStack =>
    if identity n ∈ visited then
      dagIsCyclicalGoRef G identity compare ns visited recStack
    else
      match dagDFS G identity compare (dfsFuel G) n visited recStack with
      | none => none
      | some (b2, v2, r2) =>
        if b2 then some true
        else dagIsCyclicalGoRef G identity compare ns v2 r2

/-- Modelled from the spec: `dagIsCyclicalDFS` with the skipping outer
loop. -/
def dagIsCyclicalDFSRef (G : Graph Node) (identity : Node → NodeID)
    (compare : Node → Node → Int) : Bool :=
  (dagIsCyclicalGoRef G identity compare G.nodes ∅ ∅).getD false

theorem dagIsCyclicalGo_eq_ref (G : Graph Node) (identity : Node → NodeID)
    (compare : Node → Node → Int)
    (Hcmp : ∀ a b, compare a b = 0 ↔ identity a = identity b) :
    ∀ ns V F, V = F.toFinset → RankOK G identity F →
      dagIsCyclicalGo G identity compare ns V ∅ =
        dagIsCyclicalGoRef G identity compare ns V ∅ := by
  intro ns
  induction ns with
  | nil => intro V F _ _; rfl
  | cons n ns ih =>
    intro V F hVF hF
    simp only [dagIsCyclicalGo, dagIsCyclicalGoRef]
    by_cases hnv : identity n ∈ V
    · rw [if_pos hnv]
      rcases hd : dagDFS G identity compare (dfsFuel G) n V ∅ with _ | ⟨b2, v2, r2⟩
      · have hs := dagDFS_isSome G identity compare (dfsFuel G) n V ∅ (by
          have h1 : (allNodeIds G identity \ insert (identity n) V).card ≤
              (allNodeIds G identity).card :=
            Finset.card_le_card (Finset.sdiff_subset)
          have h2 : (allNodeIds G identity).card ≤
              ((G.nodes ++ G.edges.map Edge.tgt).map identity).length :=
            List.toFinset_card_le _
          have h3 : ((G.nodes ++ G.edges.map Edge.tgt).map identity).length =
              G.nodes.length + G.edges.length := by simp
          simp only [dfsFuel]
          omega)
        rw [hd] at hs
        simp at hs
      · have hres := dagDFS_visited G identity compare Hcmp _ n V _ F hd
          hnv hVF hF
        simp only [Prod.mk.injEq] at hres
        obtain ⟨hb2, hv2, hr2⟩ := hres
        subst hb2 hv2 hr2
        simp only [Bool.false_eq_true, if_false]
        exact ih _ F hVF hF
    · rw [if_neg hnv]
      rcases hd : dagDFS G identity compare (dfsFuel G) n V ∅ with _ | ⟨b2, v2, r2⟩
      · rfl
      · cases b2
        · simp only [Bool.false_eq_true, if_false]
          obtain ⟨Fd, hRank, _, hv2, hr2⟩ :=
            dagDFS_rank G identity compare Hcmp _ n V ∅ (false, v2, r2) F hd
              hnv (by rw [Finset.empty_union, hVF]) hF rfl
          simp only at hv2 hr2
          rw [hr2]
          exact ih v2 (F ++ Fd) (by rw [hv2, Finset.empty_union]) hRank
        · rfl

/-- Claim C9: `dagIsCyclicalDFS` performs its DFS from every node not yet
visited: with a comparator consistent with identity, its result equals the
reference algorithm whose outer loop skips already-visited start nodes. -/
theorem dagIsCyclicalDFS_eq_ref (G : Graph Node) (identity : Node → NodeID)
    (compare : Node → Node → Int)
    (Hcmp : ∀ a b, compare a b = 0 ↔ identity a = identity b) :
    dagIsCyclicalDFS G identity compare = dagIsCyclicalDFSRef G identity compare := by
  unfold dagIsCyclicalDFS dagIsCyclicalDFSRef
  rw [dagIsCyclicalGo_eq_ref G identity compare Hcmp G.nodes ∅ [] (by simp)
    (rankOK_nil G identity)]

/-- Witness for C9 at a concrete two-node graph. -/
theorem dagIsCyclicalDFS_eq_ref_witness :
    dagIsCyclicalDFS (⟨[0, 1], [⟨0, 1⟩]⟩ : Graph Nat) (fun n => n)
        (fun a b => (a : Int) - b) =
      dagIsCyclicalDFSRef (⟨[0, 1], [⟨0, 1⟩]⟩ : Graph Nat) (fun n => n)
        (fun a b => (a : Int) - b) :=
  dagIsCyclicalDFS_eq_ref ⟨[0, 1], [⟨0, 1⟩]⟩ (fun n => n)
    (fun a b => (a : Int) - b)
    (by intro a b; show (a : Int) - b = 0 ↔ a = b; omega)


/-! ## Basic invariants of the `dagTopologicalSortDFS` recursion -/

theorem topoEdges_mono (identity : Node → NodeID) (compare : Node → Node → Int)
    (dfs : Node → Finset NodeID → List Node →
      Option (Finset NodeID × List Node))
    (node : Node)
    (Hdfs : ∀ m V st res, dfs m V st = some res → V ⊆ res.1) :
    ∀ es V st res, topoEdges identity compare dfs node es V st = some res →
      V ⊆ res.1 := by
  intro es
  induction es with
  | nil =>
    intro V st res h
    simp only [topoEdges] at h
    cases h
    exact Finset.Subset.refl _
  | cons e rest ih =>
    intro V st res h
    simp only [topoEdges] at h
    split at h
    · split at h
      · exact ih V st res h
      · rcases hd : dfs e.tgt V st with _ | ⟨v2, s2⟩
        · rw [hd] at h; cases h
        · rw [hd] at h
          exact (Hdfs _ _ _ _ hd).trans (ih v2 s2 res h)
    · exact ih V st res h

theorem topoDFS_mono (G : Graph Node) (identity : Node → NodeID)
    (compare : Node → Node → Int) :
    ∀ fuel n V st res, topoDFS G identity compare fuel n V st = some res →
      insert (identity n) V ⊆ res.1 := by
  intro fuel
  induction fuel with
  | zero => intro n V st res h; cases h
  | succ fuel ih =>
    intro n V st res h
    simp only [topoDFS] at h
    rcases he : topoEdges identity compare (topoDFS G identity compare fuel) n
        G.edges (insert (identity n) V) st with _ | ⟨v2, s2⟩
    · rw [he] at h; cases h
    · rw [he] at h
      cases h
      exact topoEdges_mono identity compare _ n
        (fun m V' st' res' h' =>
          (Finset.subset_insert _ _).trans (ih m V' st' res' h'))
        G.edges _ _ (v2, s2) he

theorem topoEdges_isSome (G : Graph Node) (identity : Node → NodeID)
    (compare : Node → Node → Int)
    (dfs : Node → Finset NodeID → List Node →
      Option (Finset NodeID × List Node))
    (node : Node) (V0 : Finset NodeID)
    (Hmono : ∀ m V st res, dfs m V st = some res → V ⊆ res.1)
    (Hdfs : ∀ m V st, V0 ⊆ V → identity m ∉ V →
      (∃ e ∈ G.edges, e.tgt = m) → (dfs m V st).isSome) :
    ∀ es V st, (∀ e ∈ es, e ∈ G.edges) → V0 ⊆ V →
      (topoEdges identity compare dfs node es V st).isSome := by
  intro es
  induction es with
  | nil => intro V st _ _; simp [topoEdges]
  | cons e rest ih =>
    intro V st hes hV0
    have heG : e ∈ G.edges := hes e (List.mem_cons_self _ _)
    have hrest := fun e' he' => hes e' (List.mem_cons_of_mem _ he')
    simp only [topoEdges]
    split
    · split
      · exact ih V st hrest hV0
      · rename_i hnv
        have hd := Hdfs e.tgt V st hV0 hnv ⟨e, heG, rfl⟩
        rcases hdd : dfs e.tgt V st with _ | ⟨v2, s2⟩
        · rw [hdd] at hd; cases hd
        · exact ih v2 s2 hrest (hV0.trans (Hmono _ _ _ _ hdd))
    · exact ih V st hrest hV0

theorem topoDFS_isSome (G : Graph Node) (identity : Node → NodeID)
    (compare : Node → Node → Int) :
    ∀ fuel n V st,
      (allNodeIds G identity \ insert (identity n) V).card < fuel →
      (topoDFS G identity compare fuel n V st).isSome := by
  intro fuel
  induction fuel with
  | zero => intro n V st h; omega
  | succ fuel ih =>
    intro n V st hcard
    simp only [topoDFS]
    have hsome : (topoEdges identity compare (topoDFS G identity compare fuel)
        n G.edges (insert (identity n) V) st).isSome := by
      refine topoEdges_isSome G identity compare _ n (insert (identity n) V)
        (fun m V' st' res' h' =>
          (Finset.subset_insert _ _).trans
            (topoDFS_mono G identity compare fuel m V' st' res' h'))
        ?_ G.edges _ _ (fun e he => he) (Finset.Subset.refl _)
      intro m V' st' hVV' hm hedge
      refine ih m V' st' ?_
      have hmem : identity m ∈ allNodeIds G identity \ insert (identity n) V := by
        refine Finset.mem_sdiff.2 ⟨?_, fun hc => hm (hVV' hc)⟩
        obtain ⟨e, he, hem⟩ := hedge
        simp only [allNodeIds, List.mem_toFinset, List.mem_map]
        exact ⟨e.tgt, by
          simp only [List.mem_append, List.mem_map]
          exact Or.inr ⟨e, he, rfl⟩, by rw [hem]⟩
      have hsub : allNodeIds G identity \ insert (identity m) V' ⊆
          (allNodeIds G identity \ insert (identity n) V).erase (identity m) := by
        intro x hx
        have hx' := Finset.mem_sdiff.1 hx
        refine Finset.mem_erase.2 ⟨?_, Finset.mem_sdiff.2 ⟨hx'.1, ?_⟩⟩
        · intro hxm; exact hx'.2 (hxm ▸ Finset.mem_insert_self _ _)
        · intro hc; exact hx'.2 (Finset.mem_insert_of_mem (hVV' hc))
      have h1 := Finset.card_le_card hsub
      have h2 := Finset.card_erase_of_mem hmem
      have h3 : 0 < (allNodeIds G identity \ insert (identity n) V).card :=
        Finset.card_pos.2 ⟨_, hmem⟩
      omega
    rcases he : topoEdges identity compare (topoDFS G identity compare fuel) n
        G.edges (insert (identity n) V) st with _ | ⟨v2, s2⟩
    · rw [he] at hsome; cases hsome
    · simp

theorem topoGo_isSome (G : Graph Node) (identity : Node → NodeID)
    (compare : Node → Node → Int) :
    ∀ ns V st, (topoGo G identity compare ns V st).isSome := by
  have hbound : ∀ (S : Finset NodeID),
      (allNodeIds G identity \ S).card < dfsFuel G := by
    intro S
    have h1 : (allNodeIds G identity \ S).card ≤ (allNodeIds G identity).card :=
      Finset.card_le_card (Finset.sdiff_subset)
    have h2 : (allNodeIds G identity).card ≤
        ((G.nodes ++ G.edges.map Edge.tgt).map identity).length :=
      List.toFinset_card_le _
    have h3 : ((G.nodes ++ G.edges.map Edge.tgt).map identity).length =
        G.nodes.length + G.edges.length := by simp
    simp only [dfsFuel]
    omega
  intro ns
  induction ns with
  | nil => intro V st; simp [topoGo]
  | cons n ns ih =>
    intro V st
    simp only [topoGo]
    split
    · exact ih V st
    · have hs := topoDFS_isSome G identity compare (dfsFuel G) n V st (hbound _)
      rcases hd : topoDFS G identity compare (dfsFuel G) n V st with _ | ⟨v2, s2⟩
      · rw [hd] at hs; cases hs
      · exact ih v2 s2

/-! ## State synchronisation for the topological sort -/

theorem topoEdges_spec (G : Graph Node) (identity : Node → NodeID)
    (compare : Node → Node → Int)
    (dfs : Node → Finset NodeID → List Node →
      Option (Finset NodeID × List Node))
    (node : Node)
    (Hdfs : ∀ m V st res, dfs m V st = some res → identity m ∉ V →
      (∃ e ∈ G.edges, e.tgt = m) →
      ∃ Δ, res.2 = st ++ Δ ∧ res.1 = V ∪ (Δ.map identity).toFinset ∧
        (Δ.map identity).Nodup ∧ (∀ x ∈ Δ, identity x ∉ V) ∧
        identity m ∈ Δ.map identity ∧
        (∀ x ∈ Δ, x ∈ G.nodes ∨ ∃ e ∈ G.edges, e.tgt = x)) :
    ∀ es V st res, (∀ e ∈ es, e ∈ G.edges) →
      topoEdges identity compare dfs node es V st = some res →
      ∃ Δ, res.2 = st ++ Δ ∧ res.1 = V ∪ (Δ.map identity).toFinset ∧
        (Δ.map identity).Nodup ∧ (∀ x ∈ Δ, identity x ∉ V) ∧
        (∀ x ∈ Δ, x ∈ G.nodes ∨ ∃ e ∈ G.edges, e.tgt = x) := by
  intro es
  induction es with
  | nil =>
    intro V st res _ h
    simp only [topoEdges] at h
    cases h
    exact ⟨[], by simp, by simp, by simp, by simp, by simp⟩
  | cons e rest ih =>
    intro V st res hes h
    have heG : e ∈ G.edges := hes e (List.mem_cons_self _ _)
    have hrest := fun e' he' => hes e' (List.mem_cons_of_mem _ he')
    simp only [topoEdges] at h
    split at h
    · split at h
      · exact ih V st res hrest h
      · rename_i hnv
        rcases hd : dfs e.tgt V st with _ | ⟨v2, s2⟩
        · rw [hd] at h; cases h
        · rw [hd] at h
          obtain ⟨Δ1, hs2, hv2, hnd1, hnin1, _, hel1⟩ :=
            Hdfs e.tgt V st (v2, s2) hd hnv ⟨e, heG, rfl⟩
          simp only at hs2 hv2
          obtain ⟨Δ2, hres2, hres1, hnd2, hnin2, hel2⟩ := ih v2 s2 res hrest h
          refine ⟨Δ1 ++ Δ2, ?_, ?_, ?_, ?_, ?_⟩
          · rw [hres2, hs2, List.append_assoc]
          · rw [hres1, hv2]
            ext x
            simp only [Finset.mem_union, List.mem_toFinset, List.map_append,
              List.mem_append]
            tauto
          · rw [List.map_append, List.nodup_append]
            refine ⟨hnd1, hnd2, ?_⟩
            intro a ha1 ha2
            simp only [List.mem_map] at ha1 ha2
            obtain ⟨x1, hx1, hax1⟩ := ha1
            obtain ⟨x2, hx2, hax2⟩ := ha2
            refine hnin2 x2 hx2 ?_
            rw [hv2]
            refine Finset.mem_union_right _ ?_
            rw [hax2, ← hax1]
            exact List.mem_toFinset.2 (List.mem_map_of_mem identity hx1)
          · intro x hx
            rcases List.mem_append.1 hx with hx | hx
            · exact hnin1 x hx
            · intro hc
              exact hnin2 x hx (by rw [hv2]; exact Finset.mem_union_left _ hc)
          · intro x hx
            rcases List.mem_append.1 hx with hx | hx
            · exact hel1 x hx
            · exact hel2 x hx
    · exact ih V st res hrest h

theorem topoDFS_spec (G : Graph Node) (identity : Node → NodeID)
    (compare : Node → Node → Int) :
    ∀ fuel n V st res, topoDFS G identity compare fuel n V st = some res →
      identity n ∉ V → (n ∈ G.nodes ∨ ∃ e ∈ G.edges, e.tgt = n) →
      ∃ Δ, res.2 = st ++ Δ ∧ res.1 = V ∪ (Δ.map identity).toFinset ∧
        (Δ.map identity).Nodup ∧ (∀ x ∈ Δ, identity x ∉ V) ∧
        identity n ∈ Δ.map identity ∧
        (∀ x ∈ Δ, x ∈ G.nodes ∨ ∃ e ∈ G.edges, e.tgt = x) := by
  intro fuel
  induction fuel with
  | zero => intro n V st res h; cases h
  | succ fuel ih =>
    intro n V st res h hnV hn
    simp only [topoDFS] at h
    rcases he : topoEdges identity compare (topoDFS G identity compare fuel) n
        G.edges (insert (identity n) V) st with _ | ⟨v2, s2⟩
    · rw [he] at h; cases h
    · rw [he] at h
      cases h
      obtain ⟨Δ1, hs2, hv2, hnd1, hnin1, hel1⟩ :=
        topoEdges_spec G identity compare _ n
          (fun m V' st' res' h' hm' he' => ih m V' st' res' h' hm' (Or.inr he'))
          G.edges _ _ _ (fun e he => he) he
      simp only at hs2 hv2
      refine ⟨Δ1 ++ [n], ?_, ?_, ?_, ?_, ?_, ?_⟩
      · rw [hs2, List.append_assoc]
      · rw [hv2]
        ext x
        simp only [Finset.mem_union, Finset.mem_insert, List.mem_toFinset,
          List.map_append, List.mem_append, List.map_cons, List.map_nil,
          List.mem_singleton]
        tauto
      · rw [List.map_append, List.nodup_append]
        refine ⟨hnd1, by simp, ?_⟩
        intro a ha1 ha2
        simp only [List.map_cons, List.map_nil, List.mem_singleton] at ha2
        simp only [List.mem_map] at ha1
        obtain ⟨x1, hx1, hax1⟩ := ha1
        exact hnin1 x1 hx1 (by rw [hax1, ha2]; exact Finset.mem_insert_self _ _)
      · intro x hx
        rcases List.mem_append.1 hx with hx | hx
        · exact fun hc => hnin1 x hx (Finset.mem_insert_of_mem hc)
        · rw [List.mem_singleton.1 hx]
          exact hnV
      · simp
      · intro x hx
        rcases List.mem_append.1 hx with hx | hx
        · exact hel1 x hx
        · rw [List.mem_singleton.1 hx]
          exact hn

theorem topoGo_spec (G : Graph Node) (identity : Node → NodeID)
    (compare : Node → Node → Int) :
    ∀ ns V st res, (∀ x ∈ ns, x ∈ G.nodes) →
      topoGo G identity compare ns V st = some res →
      ∃ Δ, res.2 = st ++ Δ ∧ res.1 = V ∪ (Δ.map identity).toFinset ∧
        (Δ.map identity).Nodup ∧ (∀ x ∈ Δ, identity x ∉ V) ∧
        (∀ x ∈ Δ, x ∈ G.nodes ∨ ∃ e ∈ G.edges, e.tgt = x) ∧
        (∀ x ∈ ns, identity x ∈ res.1) := by
  intro ns
  induction ns with
  | nil =>
    intro V st res _ h
    simp only [topoGo] at h
    cases h
    exact ⟨[], by simp, by simp, by simp, by simp, by simp, by simp⟩
  | cons n ns ih =>
    intro V st res hns h
    have hnn : n ∈ G.nodes := hns n (List.mem_cons_self _ _)
    have hrest := fun x hx => hns x (List.mem_cons_of_mem _ hx)
    simp only [topoGo] at h
    split at h
    · rename_i hnv
      obtain ⟨Δ, h1, h2, h3, h4, h5, h6⟩ := ih V st res hrest h
      refine ⟨Δ, h1, h2, h3, h4, h5, ?_⟩
      intro x hx
      rcases List.mem_cons.1 hx with hx | hx
      · subst hx
        rw [h2]
        exact Finset.mem_union_left _ hnv
      · exact h6 x hx
    · rename_i hnv
      rcases hd : topoDFS G identity compare (dfsFuel G) n V st with _ | ⟨v2, s2⟩
      · rw [hd] at h; cases h
      · rw [hd] at h
        obtain ⟨Δ1, hs2, hv2, hnd1, hnin1, hmem1, hel1⟩ :=
          topoDFS_spec G identity compare _ n V st (v2, s2) hd hnv (Or.inl hnn)
        simp only at hs2 hv2
        obtain ⟨Δ2, hres2, hres1, hnd2, hnin2, hel2, hcov2⟩ :=
          ih v2 s2 res hrest h
        refine ⟨Δ1 ++ Δ2, ?_, ?_, ?_, ?_, ?_, ?_⟩
        · rw [hres2, hs2, List.append_assoc]
        · rw [hres1, hv2]
          ext x
          simp only [Finset.mem_union, List.mem_toFinset, List.map_append,
            List.mem_append]
          tauto
        · rw [List.map_append, List.nodup_append]
          refine ⟨hnd1, hnd2, ?_⟩
          intro a ha1 ha2
          simp only [List.mem_map] at ha1 ha2
          obtain ⟨x1, hx1, hax1⟩ := ha1
          obtain ⟨x2, hx2, hax2⟩ := ha2
          refine hnin2 x2 hx2 ?_
          rw [hv2]
          refine Finset.mem_union_right _ ?_
          rw [hax2, ← hax1]
          exact List.mem_toFinset.2 (List.mem_map_of_mem identity hx1)
        · intro x hx
          rcases List.mem_append.1 hx with hx | hx
          · exact hnin1 x hx
          · intro hc
            exact hnin2 x hx (by rw [hv2]; exact Finset.mem_union_left _ hc)
        · intro x hx
          rcases List.mem_append.1 hx with hx | hx
          · exact hel1 x hx
          · exact hel2 x hx
        · intro x hx
          rcases List.mem_cons.1 hx with hx | hx
          · subst hx
            rw [hres1, hv2]
            refine Finset.mem_union_left _ (Finset.mem_union_right _ ?_)
            exact List.mem_toFinset.2 hmem1
          · exact hcov2 x hx


/-! ## The postorder stack is topologically sorted (acyclic graphs) -/

/-- Stack invariant: every matched edge out of a stacked node points to an
identity already on the stack strictly earlier. -/
def StackOK (G : Graph Node) (identity : Node → NodeID) (st : List Node) :
    Prop :=
  ∀ p (hp : p < st.length) e, e ∈ G.edges →
    identity e.frm = identity st[p] →
    ∃ q, ∃ hq : q < st.length, q < p ∧ identity st[q] = identity e.tgt

omit [DecidableEq NodeID] in
theorem stackOK_nil (G : Graph Node) (identity : Node → NodeID) :
    StackOK G identity [] := by
  intro p hp
  simp at hp

omit [DecidableEq NodeID] in
theorem stackOK_snoc (G : Graph Node) (identity : Node → NodeID)
    (st : List Node) (x : Node) (hst : StackOK G identity st)
    (hx : ∀ e ∈ G.edges, identity e.frm = identity x →
      identity e.tgt ∈ st.map identity) :
    StackOK G identity (st ++ [x]) := by
  intro p hp e he hfrm
  by_cases hpL : p < st.length
  · rw [List.getElem_append_left hpL] at hfrm
    obtain ⟨q, hq, hqp, hqv⟩ := hst p hpL e he hfrm
    refine ⟨q, ?_, hqp, ?_⟩
    · simp only [List.length_append, List.length_cons, List.length_nil]; omega
    · rw [List.getElem_append_left hq]; exact hqv
  · have hpe : p = st.length := by
      simp only [List.length_append, List.length_cons, List.length_nil] at hp
      omega
    rw [List.getElem_concat_length st x p hpe] at hfrm
    obtain ⟨y, hy, hyv⟩ := List.mem_map.1 (hx e he hfrm)
    obtain ⟨q, hq, hqv⟩ := List.mem_iff_getElem.1 hy
    refine ⟨q, ?_, by omega, ?_⟩
    · simp only [List.length_append, List.length_cons, List.length_nil]; omega
    · rw [List.getElem_append_left hq, hqv]; exact hyv

theorem topoEdges_sorted (G : Graph Node) (identity : Node → NodeID)
    (compare : Node → Node → Int)
    (dfs : Node → Finset NodeID → List Node →
      Option (Finset NodeID × List Node))
    (node : Node)
    (Hacyc : ¬ GraphCyclic G)
    (Hend : ∀ e ∈ G.edges, e.frm ∈ G.nodes ∧ e.tgt ∈ G.nodes)
    (Hinj : ∀ a ∈ G.nodes, ∀ b ∈ G.nodes, identity a = identity b → a = b)
    (Hcmp : ∀ a b, compare a b = 0 ↔ identity a = identity b)
    (Hdfs : ∀ m V st (P : List Node) res, dfs m V st = some res → m ∈ G.nodes →
      identity m ∉ V →
      (∀ x ∈ P, x ∈ G.nodes ∧ Relation.ReflTransGen (GStep G) x m) →
      V = (st.map identity).toFinset ∪ (P.map identity).toFinset →
      (∀ x ∈ st, x ∈ G.nodes) → StackOK G identity st →
      ∃ Δ, res.2 = st ++ Δ ∧ (∀ x ∈ Δ, x ∈ G.nodes) ∧
        StackOK G identity (st ++ Δ) ∧
        res.1 = ((st ++ Δ).map identity).toFinset ∪
          (P.map identity).toFinset ∧
        identity m ∈ Δ.map identity)
    (node_mem : node ∈ G.nodes)
    (P : List Node)
    (hP : ∀ x ∈ P, x ∈ G.nodes ∧ Relation.ReflTransGen (GStep G) x node) :
    ∀ es V st res, (∀ e ∈ es, e ∈ G.edges) →
      topoEdges identity compare dfs node es V st = some res →
      V = (st.map identity).toFinset ∪
        ((P ++ [node]).map identity).toFinset →
      (∀ x ∈ st, x ∈ G.nodes) → StackOK G identity st →
      ∃ Δ, res.2 = st ++ Δ ∧ (∀ x ∈ Δ, x ∈ G.nodes) ∧
        StackOK G identity (st ++ Δ) ∧
        res.1 = ((st ++ Δ).map identity).toFinset ∪
          ((P ++ [node]).map identity).toFinset ∧
        (∀ e ∈ es, compare e.frm node = 0 →
          identity e.tgt ∈ (st ++ Δ).map identity) := by
  intro es
  induction es with
  | nil =>
    intro V st res _ h hVF hstn hst
    simp only [topoEdges] at h
    cases h
    exact ⟨[], by simp, by simp, by simpa using hst, by simpa using hVF,
      by simp⟩
  | cons e rest ih =>
    intro V st res hes h hVF hstn hst
    have heG : e ∈ G.edges := hes e (List.mem_cons_self _ _)
    have hesr := fun e' he' => hes e' (List.mem_cons_of_mem _ he')
    simp only [topoEdges] at h
    split at h
    · rename_i hc
      have hfrm : e.frm = node :=
        Hinj _ (Hend e heG).1 _ node_mem ((Hcmp _ _).1 hc)
      have hstp : GStep G node e.tgt := ⟨e, heG, hfrm, rfl⟩
      split at h
      · rename_i hv
        have hvst : identity e.tgt ∈ st.map identity := by
          rw [hVF] at hv
          rcases Finset.mem_union.1 hv with hv | hv
          · exact List.mem_toFinset.1 hv
          · exfalso
            obtain ⟨y, hy, hyv⟩ := List.mem_map.1 (List.mem_toFinset.1 hv)
            have hyn : y ∈ G.nodes := by
              rcases List.mem_append.1 hy with hy | hy
              · exact (hP y hy).1
              · rw [List.mem_singleton.1 hy]; exact node_mem
            have hye : y = e.tgt := Hinj _ hyn _ (Hend e heG).2 hyv
            rcases List.mem_append.1 hy with hy | hy
            · exact Hacyc ⟨e.tgt,
                Relation.TransGen.tail' (hye ▸ (hP y hy).2) hstp⟩
            · rw [List.mem_singleton.1 hy] at hye
              exact Hacyc ⟨node, Relation.TransGen.single (hye ▸ hstp)⟩
        obtain ⟨Δ, h1, h2, h3, h4, h5⟩ := ih V st res hesr h hVF hstn hst
        refine ⟨Δ, h1, h2, h3, h4, ?_⟩
        intro e' he' hc'
        rcases List.mem_cons.1 he' with he' | he'
        · subst he'
          rw [List.map_append]
          exact List.mem_append_left _ hvst
        · exact h5 e' he' hc'
      · rename_i hnv
        rcases hd : dfs e.tgt V st with _ | ⟨v2, s2⟩
        · rw [hd] at h; cases h
        · rw [hd] at h
          have hP' : ∀ x ∈ P ++ [node], x ∈ G.nodes ∧
              Relation.ReflTransGen (GStep G) x e.tgt := by
            intro x hx
            rcases List.mem_append.1 hx with hx | hx
            · exact ⟨(hP x hx).1, (hP x hx).2.tail hstp⟩
            · rw [List.mem_singleton.1 hx]
              exact ⟨node_mem, Relation.ReflTransGen.single hstp⟩
          obtain ⟨Δ1, hs2, hΔ1n, hStack1, hv2, hm1⟩ :=
            Hdfs e.tgt V st (P ++ [node]) (v2, s2) hd (Hend e heG).2 hnv
              hP' hVF hstn hst
          simp only at hs2 hv2
          subst hs2
          obtain ⟨Δ2, h1, h2, h3, h4, h5⟩ := ih v2 (st ++ Δ1) res hesr h hv2
            (by
              intro x hx
              rcases List.mem_append.1 hx with hx | hx
              · exact hstn x hx
              · exact hΔ1n x hx)
            hStack1
          simp only [List.append_assoc] at h1 h3 h4 h5
          refine ⟨Δ1 ++ Δ2, h1, ?_, h3, h4, ?_⟩
          · intro x hx
            rcases List.mem_append.1 hx with hx | hx
            · exact hΔ1n x hx
            · exact h2 x hx
          · intro e' he' hc'
            rcases List.mem_cons.1 he' with he' | he'
            · subst he'
              simp only [List.map_append, List.mem_append]
              exact Or.inr (Or.inl hm1)
            · exact h5 e' he' hc'
    · rename_i hc
      obtain ⟨Δ, h1, h2, h3, h4, h5⟩ := ih V st res hesr h hVF hstn hst
      refine ⟨Δ, h1, h2, h3, h4, ?_⟩
      intro e' he' hc'
      rcases List.mem_cons.1 he' with he' | he'
      · subst he'; exact absurd hc' hc
      · exact h5 e' he' hc'

theorem topoDFS_sorted (G : Graph Node) (identity : Node → NodeID)
    (compare : Node → Node → Int)
    (Hacyc : ¬ GraphCyclic G)
    (Hend : ∀ e ∈ G.edges, e.frm ∈ G.nodes ∧ e.tgt ∈ G.nodes)
    (Hinj : ∀ a ∈ G.nodes, ∀ b ∈ G.nodes, identity a = identity b → a = b)
    (Hcmp : ∀ a b, compare a b = 0 ↔ identity a = identity b) :
    ∀ fuel m V st (P : List Node) res, topoDFS G identity compare fuel m V st = some res →
      m ∈ G.nodes → identity m ∉ V →
      (∀ x ∈ P, x ∈ G.nodes ∧ Relation.ReflTransGen (GStep G) x m) →
      V = (st.map identity).toFinset ∪ (P.map identity).toFinset →
      (∀ x ∈ st, x ∈ G.nodes) → StackOK G identity st →
      ∃ Δ, res.2 = st ++ Δ ∧ (∀ x ∈ Δ, x ∈ G.nodes) ∧
        StackOK G identity (st ++ Δ) ∧
        res.1 = ((st ++ Δ).map identity).toFinset ∪
          (P.map identity).toFinset ∧
        identity m ∈ Δ.map identity := by
  intro fuel
  induction fuel with
  | zero => intro m V st P res h; cases h
  | succ fuel ih =>
    intro m V st P res h hm hnv hP hVF hstn hst
    simp only [topoDFS] at h
    rcases he : topoEdges identity compare (topoDFS G identity compare fuel) m
        G.edges (insert (identity m) V) st with _ | ⟨v2, s2⟩
    · rw [he] at h; cases h
    · rw [he] at h
      cases h
      have hVF1 : insert (identity m) V =
          (st.map identity).toFinset ∪
            ((P ++ [m]).map identity).toFinset := by
        rw [hVF]
        ext x
        simp only [Finset.mem_insert, Finset.mem_union, List.mem_toFinset,
          List.map_append, List.mem_append, List.map_cons, List.map_nil,
          List.mem_singleton]
        tauto
      obtain ⟨Δ1, hs2, hΔ1n, hStack1, hv2, hkey⟩ :=
        topoEdges_sorted G identity compare _ m Hacyc Hend Hinj Hcmp ih hm
          P hP G.edges _ _ (v2, s2) (fun e he => he) he hVF1 hstn hst
      simp only at hs2 hv2
      refine ⟨Δ1 ++ [m], ?_, ?_, ?_, ?_, ?_⟩
      · simp only
        rw [hs2, List.append_assoc]
      · intro x hx
        rcases List.mem_append.1 hx with hx | hx
        · exact hΔ1n x hx
        · rw [List.mem_singleton.1 hx]; exact hm
      · rw [← List.append_assoc]
        exact stackOK_snoc G identity (st ++ Δ1) m hStack1
          (fun e he' hf => hkey e he' ((Hcmp _ _).2 hf))
      · simp only
        rw [hv2]
        ext x
        simp only [Finset.mem_union, List.mem_toFinset, List.map_append,
          List.mem_append, List.map_cons, List.map_nil, List.mem_singleton]
        tauto
      · simp

theorem topoGo_sorted (G : Graph Node) (identity : Node → NodeID)
    (compare : Node → Node → Int)
    (Hacyc : ¬ GraphCyclic G)
    (Hend : ∀ e ∈ G.edges, e.frm ∈ G.nodes ∧ e.tgt ∈ G.nodes)
    (Hinj : ∀ a ∈ G.nodes, ∀ b ∈ G.nodes, identity a = identity b → a = b)
    (Hcmp : ∀ a b, compare a b = 0 ↔ identity a = identity b) :
    ∀ ns V st res, (∀ x ∈ ns, x ∈ G.nodes) →
      topoGo G identity compare ns V st = some res →
      V = (st.map identity).toFinset → (∀ x ∈ st, x ∈ G.nodes) →
      StackOK G identity st →
      ∃ Δ, res.2 = st ++ Δ ∧ (∀ x ∈ st ++ Δ, x ∈ G.nodes) ∧
        StackOK G identity (st ++ Δ) ∧
        res.1 = ((st ++ Δ).map identity).toFinset := by
  intro ns
  induction ns with
  | nil =>
    intro V st res _ h hVF hstn hst
    simp only [topoGo] at h
    cases h
    exact ⟨[], by simp, by simpa using hstn, by simpa using hst,
      by simpa using hVF⟩
  | cons n ns ih =>
    intro V st res hns h hVF hstn hst
    have hnn : n ∈ G.nodes := hns n (List.mem_cons_self _ _)
    have hrest := fun x hx => hns x (List.mem_cons_of_mem _ hx)
    simp only [topoGo] at h
    split at h
    · exact ih V st res hrest h hVF hstn hst
    · rename_i hnv
      rcases hd : topoDFS G identity compare (dfsFuel G) n V st with _ | ⟨v2, s2⟩
      · rw [hd] at h; cases h
      · rw [hd] at h
        obtain ⟨Δ1, hs2, hΔ1n, hStack1, hv2, _⟩ :=
          topoDFS_sorted G identity compare Hacyc Hend Hinj Hcmp _ n V st []
            (v2, s2) hd hnn hnv (by simp) (by simpa using hVF) hstn hst
        simp only [List.map_nil, List.toFinset_nil, Finset.union_empty] at hv2
        simp only at hs2
        subst hs2
        obtain ⟨Δ2, h1, h2, h3, h4⟩ := ih v2 (st ++ Δ1) res hrest h hv2
          (by
            intro x hx
            rcases List.mem_append.1 hx with hx | hx
            · exact hstn x hx
            · exact hΔ1n x hx)
          hStack1
        rw [List.append_assoc] at h1 h2 h3 h4
        exact ⟨Δ1 ++ Δ2, h1, h2, h3, h4⟩

/-- Claim C2: on an acyclic graph whose edge endpoints are all listed nodes,
with injective identity and a comparator agreeing with identity, every
edge's `from` node appears strictly before its `to` node in
`dagTopologicalSortDFS`'s output. -/
theorem dagTopologicalSortDFS_sorted (G : Graph Node)
    (identity : Node → NodeID) (compare : Node → Node → Int)
    (Hacyc : ¬ GraphCyclic G)
    (Hend : ∀ e ∈ G.edges, e.frm ∈ G.nodes ∧ e.tgt ∈ G.nodes)
    (Hinj : ∀ a ∈ G.nodes, ∀ b ∈ G.nodes, identity a = identity b → a = b)
    (Hcmp : ∀ a b, compare a b = 0 ↔ identity a = identity b) :
    ∀ e ∈ G.edges, ∃ i j : Nat, i < j ∧
      (dagTopologicalSortDFS G identity compare)[i]? = some e.frm ∧
      (dagTopologicalSortDFS G identity compare)[j]? = some e.tgt := by
  intro e he
  have hsome := topoGo_isSome G identity compare G.nodes ∅ []
  rcases hgo : topoGo G identity compare G.nodes ∅ [] with _ | ⟨Vf, S⟩
  · rw [hgo] at hsome; cases hsome
  obtain ⟨Δ, hS, hVf, hnd, _, _, hcov⟩ :=
    topoGo_spec G identity compare G.nodes ∅ [] (Vf, S) (fun x hx => hx) hgo
  simp only [List.nil_append] at hS
  obtain ⟨Δ', hS', hallnn, hStack, hVf'⟩ :=
    topoGo_sorted G identity compare Hacyc Hend Hinj Hcmp G.nodes ∅ []
      (Vf, S) (fun x hx => hx) hgo (by simp) (by simp)
      (stackOK_nil G identity)
  simp only [List.nil_append] at hS' hallnn hStack hVf'
  subst hS'
  have hmemS : ∀ g ∈ G.nodes, g ∈ S := by
    intro g hg
    have hidg : identity g ∈ Vf := hcov g hg
    rw [hVf'] at hidg
    obtain ⟨y, hy, hyv⟩ := List.mem_map.1 (List.mem_toFinset.1 hidg)
    have : y = g := Hinj _ (hallnn y hy) _ hg hyv
    exact this ▸ hy
  have hfS : e.frm ∈ S := hmemS _ (Hend e he).1
  obtain ⟨pf, hpf, hpfv⟩ := List.mem_iff_getElem.1 hfS
  obtain ⟨q, hq, hqpf, hqv⟩ := hStack pf hpf e he (by rw [hpfv])
  have hout : dagTopologicalSortDFS G identity compare = S.reverse := by
    simp [dagTopologicalSortDFS, hgo]
  have hqtv : S[q] = e.tgt :=
    Hinj _ (hallnn _ (List.getElem_mem hq)) _ (Hend e he).2 hqv
  refine ⟨S.length - 1 - pf, S.length - 1 - q, by omega, ?_, ?_⟩
  · rw [hout, List.getElem?_reverse (by omega)]
    have heq : S.length - 1 - (S.length - 1 - pf) = pf := by omega
    rw [heq, List.getElem?_eq_getElem hpf, hpfv]
  · rw [hout, List.getElem?_reverse (by omega)]
    have heq : S.length - 1 - (S.length - 1 - q) = q := by omega
    rw [heq, List.getElem?_eq_getElem hq, hqtv]

/-- Witness for C2 at the two-node one-edge graph. -/
theorem dagTopologicalSortDFS_sorted_witness :
    ∃ i j : Nat, i < j ∧
      (dagTopologicalSortDFS (⟨[0, 1], [⟨0, 1⟩]⟩ : Graph Nat) (fun n => n)
        (fun a b => (a : Int) - b))[i]? = some 0 ∧
      (dagTopologicalSortDFS (⟨[0, 1], [⟨0, 1⟩]⟩ : Graph Nat) (fun n => n)
        (fun a b => (a : Int) - b))[j]? = some 1 := by
  have hacyc : ¬ GraphCyclic (⟨[0, 1], [⟨0, 1⟩]⟩ : Graph Nat) := by
    rintro ⟨a, ha⟩
    have hstep : ∀ x y : Nat,
        GStep (⟨[0, 1], [⟨0, 1⟩]⟩ : Graph Nat) x y → x = 0 ∧ y = 1 := by
      rintro x y ⟨e', he', hf, ht⟩
      rw [List.mem_singleton.1 he'] at hf ht
      exact ⟨hf.symm ▸ rfl, ht.symm ▸ rfl⟩
    have hfst : ∀ x y : Nat,
        Relation.TransGen (GStep (⟨[0, 1], [⟨0, 1⟩]⟩ : Graph Nat)) x y →
          x = 0 := by
      intro x y h
      induction h with
      | single h => exact (hstep _ _ h).1
      | tail _ _ ih => exact ih
    cases ha with
    | single h => obtain ⟨h1, h2⟩ := hstep _ _ h; omega
    | tail h1 h2 =>
      have ha0 := hfst _ _ h1
      have ha1 := (hstep _ _ h2).2
      omega
  exact dagTopologicalSortDFS_sorted (⟨[0, 1], [⟨0, 1⟩]⟩ : Graph Nat)
    (fun n => n) (fun a b => (a : Int) - b) hacyc
    (by rintro e he; rw [List.mem_singleton.1 he]; exact ⟨by simp, by simp⟩)
    (fun a _ b _ h => h)
    (by intro a b; show (a : Int) - b = 0 ↔ a = b; omega)
    ⟨0, 1⟩ (List.mem_singleton.2 rfl)

/-- Claim C10: with pairwise-distinct node identities, a consistent
comparator and edge endpoints among the listed nodes,
`dagTopologicalSortDFS` returns a permutation of `graph.nodes`. -/
theorem dagTopologicalSortDFS_perm (G : Graph Node)
    (identity : Node → NodeID) (compare : Node → Node → Int)
    (Hpd : (G.nodes.map identity).Nodup)
    (_Hcmp : ∀ a b, compare a b = 0 ↔ identity a = identity b)
    (Hend : ∀ e ∈ G.edges, e.frm ∈ G.nodes ∧ e.tgt ∈ G.nodes) :
    (dagTopologicalSortDFS G identity compare).Perm G.nodes := by
  have hsome := topoGo_isSome G identity compare G.nodes ∅ []
  rcases hgo : topoGo G identity compare G.nodes ∅ [] with _ | ⟨Vf, S⟩
  · rw [hgo] at hsome; cases hsome
  obtain ⟨Δ, hS, hVf, hnd, _, hel, hcov⟩ :=
    topoGo_spec G identity compare G.nodes ∅ [] (Vf, S) (fun x hx => hx) hgo
  simp only [List.nil_append] at hS
  subst hS
  simp only [Finset.empty_union] at hVf
  have hSn : ∀ x ∈ S, x ∈ G.nodes := by
    intro x hx
    rcases hel x hx with hx' | ⟨e, he, ht⟩
    · exact hx'
    · exact ht ▸ (Hend e he).2
  have hSnd : S.Nodup := hnd.of_map
  have hNnd : G.nodes.Nodup := Hpd.of_map
  have hmiff : ∀ x, x ∈ S ↔ x ∈ G.nodes := by
    intro x
    constructor
    · exact hSn x
    · intro hg
      have hidg : identity x ∈ Vf := hcov x hg
      rw [hVf] at hidg
      obtain ⟨y, hy, hyv⟩ := List.mem_map.1 (List.mem_toFinset.1 hidg)
      have : y = x := List.inj_on_of_nodup_map Hpd (hSn y hy) hg hyv
      exact this ▸ hy
  have hperm : S.Perm G.nodes := (List.perm_ext_iff_of_nodup hSnd hNnd).2 hmiff
  have hout : dagTopologicalSortDFS G identity compare = S.reverse := by
    simp [dagTopologicalSortDFS, hgo]
  rw [hout]
  exact (List.reverse_perm S).trans hperm

/-- Witness for C10 at the two-node one-edge graph. -/
theorem dagTopologicalSortDFS_perm_witness :
    (dagTopologicalSortDFS (⟨[0, 1], [⟨0, 1⟩]⟩ : Graph Nat) (fun n => n)
      (fun a b => (a : Int) - b)).Perm [0, 1] :=
  dagTopologicalSortDFS_perm (⟨[0, 1], [⟨0, 1⟩]⟩ : Graph Nat) (fun n => n)
    (fun a b => (a : Int) - b) (by simp)
    (by intro a b; show (a : Int) - b = 0 ↔ a = b; omega)
    (by rintro e he; rw [List.mem_singleton.1 he]; exact ⟨by simp, by simp⟩)


/-! ## Facts about `dagTopologicalSortDFS` used by `dagDependencies` -/

theorem dagTopologicalSortDFS_ids_nodup (G : Graph Node)
    (identity : Node → NodeID) (compare : Node → Node → Int) :
    ((dagTopologicalSortDFS G identity compare).map identity).Nodup := by
  have hsome := topoGo_isSome G identity compare G.nodes ∅ []
  rcases hgo : topoGo G identity compare G.nodes ∅ [] with _ | ⟨Vf, S⟩
  · rw [hgo] at hsome; cases hsome
  obtain ⟨Δ, hS, _, hnd, _, _, _⟩ :=
    topoGo_spec G identity compare G.nodes ∅ [] (Vf, S) (fun x hx => hx) hgo
  simp only [List.nil_append] at hS
  subst hS
  have hout : dagTopologicalSortDFS G identity compare = S.reverse := by
    simp [dagTopologicalSortDFS, hgo]
  rw [hout, List.map_reverse, List.nodup_reverse]
  exact hnd

theorem dagTopologicalSortDFS_covers (G : Graph Node)
    (identity : Node → NodeID) (compare : Node → Node → Int) :
    ∀ g ∈ G.nodes,
      identity g ∈ (dagTopologicalSortDFS G identity compare).map identity := by
  intro g hg
  have hsome := topoGo_isSome G identity compare G.nodes ∅ []
  rcases hgo : topoGo G identity compare G.nodes ∅ [] with _ | ⟨Vf, S⟩
  · rw [hgo] at hsome; cases hsome
  obtain ⟨Δ, hS, hVf, _, _, _, hcov⟩ :=
    topoGo_spec G identity compare G.nodes ∅ [] (Vf, S) (fun x hx => hx) hgo
  simp only [List.nil_append] at hS
  subst hS
  have hout : dagTopologicalSortDFS G identity compare = S.reverse := by
    simp [dagTopologicalSortDFS, hgo]
  have hidg := hcov g hg
  have hVf2 : Vf = (S.map identity).toFinset := by simpa using hVf
  rw [hout, List.map_reverse, List.mem_reverse]
  exact List.mem_toFinset.1 (hVf2 ▸ hidg)

/-! ## `dagDependencies` invariants -/

theorem assocFind_none_keys :
    ∀ (L : List (NodeID × Nat)) (k : NodeID), assocFind L k = none →
      ∀ p ∈ L, p.1 ≠ k := by
  intro L
  induction L with
  | nil => intro k _ p hp; cases hp
  | cons q rest ih =>
    intro k h p hp
    simp only [assocFind] at h
    split at h
    · cases h
    · rename_i hq
      rcases List.mem_cons.1 hp with hp | hp
      · subst hp; exact hq
      · exact ih k h p hp

theorem assocFind_keys_none :
    ∀ (L : List (NodeID × Nat)) (k : NodeID), (∀ p ∈ L, p.1 ≠ k) →
      assocFind L k = none := by
  intro L
  induction L with
  | nil => intro k _; rfl
  | cons q rest ih =>
    intro k h
    simp only [assocFind]
    rw [if_neg (h q (List.mem_cons_self _ _))]
    exact ih k (fun p hp => h p (List.mem_cons_of_mem _ hp))

theorem assocFind_some_mem :
    ∀ (L : List (NodeID × Nat)) (k : NodeID) (v : Nat),
      assocFind L k = some v → ∃ p ∈ L, p.1 = k ∧ p.2 = v := by
  intro L
  induction L with
  | nil => intro k v h; cases h
  | cons q rest ih =>
    intro k v h
    simp only [assocFind] at h
    split at h
    · rename_i hq
      cases h
      exact ⟨q, List.mem_cons_self _ _, hq, rfl⟩
    · obtain ⟨p, hp, h1, h2⟩ := ih k v h
      exact ⟨p, List.mem_cons_of_mem _ hp, h1, h2⟩

omit [DecidableEq NodeID] in
theorem depsIndex_mem_iff (identity : Node → NodeID) (T : List Node)
    (p : NodeID × Nat) :
    p ∈ depsIndex identity T ↔
      ∃ h : p.2 < T.length, identity (T[p.2]) = p.1 := by
  constructor
  · intro hp
    simp only [depsIndex, List.mem_reverse, List.mem_map] at hp
    obtain ⟨q, hq, hqe⟩ := hp
    obtain ⟨i, hie⟩ := List.mem_iff_getElem?.1 hq
    rw [List.enum_eq_enumFrom, List.getElem?_enumFrom] at hie
    rcases ht : T[i]? with _ | t
    · rw [ht] at hie; cases hie
    · rw [ht] at hie
      simp only [Option.map_some', Option.some.injEq, Nat.zero_add] at hie
      obtain ⟨hlen, hTi⟩ := List.getElem?_eq_some_iff.1 ht
      subst hqe
      rw [← hie]
      simp only
      exact ⟨hlen, by rw [hTi]⟩
  · rintro ⟨h, hid⟩
    simp only [depsIndex, List.mem_reverse, List.mem_map]
    refine ⟨(p.2, T[p.2]), ?_, ?_⟩
    · refine List.mem_iff_getElem?.2 ⟨p.2, ?_⟩
      rw [List.enum_eq_enumFrom, List.getElem?_enumFrom,
        List.getElem?_eq_getElem h]
      simp
    · simp only
      rw [hid]

theorem depsRest_spec (identity : Node → NodeID) (compare : Node → Node → Int)
    (target : Node) (vis : Finset NodeID) :
    ∀ ns acc, depsRest identity compare target vis ns acc =
      (acc.1 ++ ns.filter
        (fun n => decide (identity n ∉ vis ∧ compare n target < 0)),
       acc.2 ++ ns.filter
        (fun n => decide (identity n ∉ vis ∧ 0 < compare n target))) := by
  intro ns
  induction ns with
  | nil => intro acc; simp [depsRest]
  | cons n ns ih =>
    intro acc
    simp only [depsRest]
    by_cases h1 : identity n ∈ vis
    · rw [if_pos h1, ih]
      simp [List.filter_cons, h1]
    · rw [if_neg h1]
      by_cases h2 : compare n target < 0
      · rw [if_pos h2, ih]
        have h3 : ¬ (0 < compare n target) := by omega
        simp [List.filter_cons, h1, h2, h3, List.append_assoc]
      · rw [if_neg h2]
        by_cases h3 : 0 < compare n target
        · rw [if_pos h3, ih]
          simp [List.filter_cons, h1, h2, h3, List.append_assoc]
        · rw [if_neg h3, ih]
          simp [List.filter_cons, h1, h2, h3]

/-- Claim C7: when the target's identity is absent from the index built over
the supplied topological sort, `dagDependencies` classifies every graph node
purely by the comparator sign (and in particular does not fail). -/
theorem dagDependencies_absent (G : Graph Node) (identity : Node → NodeID)
    (compare : Node → Node → Int)
    (ts : Graph Node → (Node → NodeID) → (Node → Node → Int) → List Node)
    (target : Node)
    (habs : identity target ∉ (ts G identity compare).map identity) :
    dagDependencies G identity compare ts target =
      ⟨G.nodes.filter (fun n => decide (compare n target < 0)),
       G.nodes.filter (fun n => decide (0 < compare n target))⟩ := by
  have hnone : assocFind (depsIndex identity (ts G identity compare))
      (identity target) = none := by
    refine assocFind_keys_none _ _ ?_
    intro p hp hk
    obtain ⟨h, hid⟩ := (depsIndex_mem_iff identity _ p).1 hp
    refine habs ?_
    rw [← hk, ← hid]
    exact List.mem_map_of_mem identity (List.getElem_mem h)
  simp only [dagDependencies, hnone]
  rw [depsRest_spec]
  simp only [List.nil_append]
  congr 1 <;> {
    refine List.filter_congr ?_
    intro n _
    simp [Finset.not_mem_empty]
  }

/-- Witness for C7: a supplier returning the empty sort. -/
theorem dagDependencies_absent_witness :
    dagDependencies (⟨[1], []⟩ : Graph Nat) (fun n => n)
        (fun a b => (a : Int) - b) (fun _ _ _ => []) 0 =
      ⟨[], [1]⟩ :=
  (dagDependencies_absent (⟨[1], []⟩ : Graph Nat) (fun n => n)
    (fun a b => (a : Int) - b) (fun _ _ _ => []) 0 (by simp)).trans (by decide)


theorem dagDependencies_partition_aux (G : Graph Node)
    (identity : Node → NodeID) (compare : Node → Node → Int)
    (Hinj : ∀ a b : Node, identity a = identity b → a = b)
    (Hcmp : ∀ a b, compare a b = 0 ↔ identity a = identity b)
    (target : Node) (T : List Node)
    (hnd : (T.map identity).Nodup)
    (hcovT : ∀ g ∈ G.nodes, identity g ∈ T.map identity) :
    ∀ g ∈ G.nodes, g ≠ target →
      (g ∈ (dagDependencies G identity compare (fun _ _ _ => T)
          target).dependencies ∧
        g ∉ (dagDependencies G identity compare (fun _ _ _ => T)
          target).dependents) ∨
      (g ∉ (dagDependencies G identity compare (fun _ _ _ => T)
          target).dependencies ∧
        g ∈ (dagDependencies G identity compare (fun _ _ _ => T)
          target).dependents) := by
  intro g hg hgt
  have hne0 : compare g target ≠ 0 := fun hc => hgt (Hinj _ _ ((Hcmp _ _).1 hc))
  obtain ⟨y, hyT, hyid⟩ := List.mem_map.1 (hcovT g hg)
  have hyg : y = g := Hinj _ _ hyid
  rw [hyg] at hyT
  obtain ⟨pg, hpglen, hpgv⟩ := List.mem_iff_getElem.1 hyT
  have huniq : ∀ q1 q2 (h1 : q1 < T.length) (h2 : q2 < T.length),
      identity T[q1] = identity T[q2] → q1 = q2 := by
    intro q1 q2 h1 h2 hq
    have hb1 : q1 < (T.map identity).length := by simpa using h1
    have hb2 : q2 < (T.map identity).length := by simpa using h2
    have hm1 : (T.map identity)[q1] = (T.map identity)[q2] := by
      simp only [List.getElem_map]
      exact hq
    exact (List.Nodup.getElem_inj_iff hnd).1 hm1
  rcases hfind : assocFind (depsIndex identity T) (identity target)
    with _ | ti
  · -- target's identity is absent from the index: comparator fallback
    simp only [dagDependencies, hfind, depsRest_spec, List.nil_append]
    rcases lt_trichotomy (compare g target) 0 with hlt | heq | hgt0
    · refine Or.inl ⟨?_, ?_⟩
      · exact List.mem_filter.2 ⟨hg, by
          simp [Finset.not_mem_empty, hlt]⟩
      · intro hc
        have := (List.mem_filter.1 hc).2
        simp only [decide_eq_true_eq] at this
        omega
    · exact absurd heq hne0
    · refine Or.inr ⟨?_, ?_⟩
      · intro hc
        have := (List.mem_filter.1 hc).2
        simp only [decide_eq_true_eq] at this
        omega
      · exact List.mem_filter.2 ⟨hg, by
          simp [Finset.not_mem_empty, hgt0]⟩
  · -- target found in the index at position ti
    obtain ⟨p, hpmem, hp1, hp2⟩ := assocFind_some_mem _ _ _ hfind
    obtain ⟨hplen, hpid⟩ := (depsIndex_mem_iff identity _ p).1 hpmem
    subst hp2
    have hTt : T[p.2] = target := Hinj _ _ (by rw [hpid, hp1])
    have hpgne : pg ≠ p.2 := by
      intro hc
      refine hgt ?_
      rw [← hpgv]
      simp only [hc]
      exact hTt
    have hgtake : pg < p.2 → g ∈ T.take p.2 := by
      intro hlt
      refine List.mem_iff_getElem.2 ⟨pg, ?_, ?_⟩
      · simp only [List.length_take]
        omega
      · rw [List.getElem_take]
        exact hpgv
    have hgdrop : p.2 < pg → g ∈ T.drop (p.2 + 1) := by
      intro hlt
      refine List.mem_iff_getElem.2 ⟨pg - (p.2 + 1), ?_, ?_⟩
      · simp only [List.length_drop]
        omega
      · rw [List.getElem_drop]
        have heq : p.2 + 1 + (pg - (p.2 + 1)) = pg := by omega
        simp only [heq]
        exact hpgv
    have hvis : identity g ∈
        ((T.take p.2).map identity).toFinset ∪
          ((T.drop (p.2 + 1)).map identity).toFinset := by
      rcases Nat.lt_or_ge pg p.2 with hlt | hge
      · exact Finset.mem_union_left _
          (List.mem_toFinset.2 (List.mem_map_of_mem identity (hgtake hlt)))
      · have hlt : p.2 < pg := by omega
        exact Finset.mem_union_right _
          (List.mem_toFinset.2 (List.mem_map_of_mem identity (hgdrop hlt)))
    have hnotake : pg < p.2 → g ∉ T.drop (p.2 + 1) := by
      intro hlt hc
      obtain ⟨q, hq, hqv⟩ := List.mem_iff_getElem.1 hc
      rw [List.getElem_drop] at hqv
      have hlen : p.2 + 1 + q < T.length := by
        simp only [List.length_drop] at hq
        omega
      have := huniq pg (p.2 + 1 + q) hpglen hlen (by rw [hpgv, hqv])
      omega
    have hnodrop : p.2 < pg → g ∉ T.take p.2 := by
      intro hlt hc
      obtain ⟨q, hq, hqv⟩ := List.mem_iff_getElem.1 hc
      rw [List.getElem_take] at hqv
      have hlen : q < T.length := by
        simp only [List.length_take] at hq
        omega
      have := huniq pg q hpglen hlen (by rw [hpgv, hqv])
      simp only [List.length_take] at hq
      omega
    simp only [dagDependencies, hfind, depsRest_spec]
    rcases Nat.lt_or_ge pg p.2 with hlt | hge
    · refine Or.inl ⟨?_, ?_⟩
      · exact List.mem_append_left _ (List.mem_reverse.2 (hgtake hlt))
      · intro hc
        rcases List.mem_append.1 hc with hc | hc
        · exact hnotake hlt hc
        · have := (List.mem_filter.1 hc).2
          simp only [decide_eq_true_eq] at this
          exact this.1 hvis
    · have hlt : p.2 < pg := by omega
      refine Or.inr ⟨?_, ?_⟩
      · intro hc
        rcases List.mem_append.1 hc with hc | hc
        · exact hnodrop hlt (List.mem_reverse.1 hc)
        · have := (List.mem_filter.1 hc).2
          simp only [decide_eq_true_eq] at this
          exact this.1 hvis
      · exact List.mem_append_left _ (hgdrop hlt)

/-- Claim C3: with an injective identity and a comparator whose zero agrees
with identity equality, every graph node other than the target lands in
exactly one of the `dependencies`/`dependents` lists of `dagDependencies`
(run over the library's own topological sort). -/
theorem dagDependencies_partition (G : Graph Node)
    (identity : Node → NodeID) (compare : Node → Node → Int)
    (Hinj : ∀ a b : Node, identity a = identity b → a = b)
    (Hcmp : ∀ a b, compare a b = 0 ↔ identity a = identity b)
    (target : Node) :
    ∀ g ∈ G.nodes, g ≠ target →
      (g ∈ (dagDependencies G identity compare dagTopologicalSortDFS
          target).dependencies ∧
        g ∉ (dagDependencies G identity compare dagTopologicalSortDFS
          target).dependents) ∨
      (g ∉ (dagDependencies G identity compare dagTopologicalSortDFS
          target).dependencies ∧
        g ∈ (dagDependencies G identity compare dagTopologicalSortDFS
          target).dependents) := by
  intro g hg hgt
  exact dagDependencies_partition_aux G identity compare Hinj Hcmp target
    (dagTopologicalSortDFS G identity compare)
    (dagTopologicalSortDFS_ids_nodup G identity compare)
    (dagTopologicalSortDFS_covers G identity compare) g hg hgt

/-- Witness for C3 at a two-node graph with target `0` and other node `1`. -/
theorem dagDependencies_partition_witness :
    ((1 : Nat) ∈ (dagDependencies (⟨[0, 1], [⟨0, 1⟩]⟩ : Graph Nat)
        (fun n => n) (fun a b => (a : Int) - b) dagTopologicalSortDFS
        0).dependencies ∧
      (1 : Nat) ∉ (dagDependencies (⟨[0, 1], [⟨0, 1⟩]⟩ : Graph Nat)
        (fun n => n) (fun a b => (a : Int) - b) dagTopologicalSortDFS
        0).dependents) ∨
    ((1 : Nat) ∉ (dagDependencies (⟨[0, 1], [⟨0, 1⟩]⟩ : Graph Nat)
        (fun n => n) (fun a b => (a : Int) - b) dagTopologicalSortDFS
        0).dependencies ∧
      (1 : Nat) ∈ (dagDependencies (⟨[0, 1], [⟨0, 1⟩]⟩ : Graph Nat)
        (fun n => n) (fun a b => (a : Int) - b) dagTopologicalSortDFS
        0).dependents) :=
  dagDependencies_partition (⟨[0, 1], [⟨0, 1⟩]⟩ : Graph Nat) (fun n => n)
    (fun a b => (a : Int) - b) (fun a b h => h)
    (by intro a b; show (a : Int) - b = 0 ↔ a = b; omega) 0 1
    (by simp) (by omega)


/-! ## Basic invariants of the `dagCyclesDFS` recursion -/

theorem cycEdges_mono (identity : Node → NodeID) (compare : Node → Node → Int)
    (dfs : Node → Finset NodeID → Finset NodeID → List Node →
      List (Edge Node) →
      Option (Bool × Finset NodeID × Finset NodeID × List Node ×
        List (Edge Node)))
    (node : Node)
    (Hdfs : ∀ m V R cn ce res, dfs m V R cn ce = some res → V ⊆ res.2.1) :
    ∀ es V R cn ce res,
      cycEdges identity compare dfs node es V R cn ce = some res →
      V ⊆ res.2.1 := by
  intro es
  induction es with
  | nil =>
    intro V R cn ce res h
    simp only [cycEdges] at h
    cases h
    exact Finset.Subset.refl _
  | cons e rest ih =>
    intro V R cn ce res h
    simp only [cycEdges] at h
    split at h
    · split at h
      · split at h
        · cases h; exact Finset.Subset.refl _
        · exact ih _ _ _ _ res h
      · rcases hd : dfs e.tgt V R cn (ce ++ [e]) with _ | ⟨b2, v2, r2, cn2, ce2⟩
        · rw [hd] at h; cases h
        · rw [hd] at h
          have hmV : V ⊆ v2 := Hdfs _ _ _ _ _ _ hd
          cases b2
          · simp only [Bool.false_eq_true, if_false] at h
            exact hmV.trans (ih _ _ _ _ res h)
          · simp only [if_true] at h
            cases h; exact hmV
    · exact ih _ _ _ _ res h

theorem cycDFS_mono (G : Graph Node) (identity : Node → NodeID)
    (compare : Node → Node → Int) :
    ∀ fuel n V R cn ce res,
      cycDFS G identity compare fuel n V R cn ce = some res →
      insert (identity n) V ⊆ res.2.1 := by
  intro fuel
  induction fuel with
  | zero => intro n V R cn ce res h; cases h
  | succ fuel ih =>
    intro n V R cn ce res h
    simp only [cycDFS] at h
    rcases he : cycEdges identity compare (cycDFS G identity compare fuel) n
        G.edges (insert (identity n) V) (insert (identity n) R) (cn ++ [n])
        ce with _ | ⟨b2, v2, r2, cn2, ce2⟩
    · rw [he] at h; cases h
    · rw [he] at h
      have hmono := cycEdges_mono identity compare _ n
        (fun m V' R' cn' ce' res' h' =>
          (Finset.subset_insert _ _).trans (ih m V' R' cn' ce' res' h'))
        G.edges _ _ _ _ _ he
      cases b2
      · simp only [Bool.false_eq_true, if_false] at h
        cases h
        exact hmono
      · simp only [if_true] at h
        cases h
        exact hmono

/-- Bundled state invariant for the cycles DFS edge loop: the recursion
stack stays inside `visited`; a `false` pass restores
`recursionStack`/`cycleNodes`/`cycleEdges` exactly; a `true` return only
extends `cycleNodes`/`cycleEdges`. -/
theorem cycEdges_inv (identity : Node → NodeID) (compare : Node → Node → Int)
    (dfs : Node → Finset NodeID → Finset NodeID → List Node →
      List (Edge Node) →
      Option (Bool × Finset NodeID × Finset NodeID × List Node ×
        List (Edge Node)))
    (node : Node)
    (Hmono : ∀ m V R cn ce res, dfs m V R cn ce = some res → V ⊆ res.2.1)
    (Hdfs : ∀ m V R cn ce res, dfs m V R cn ce = some res → R ⊆ V →
      res.2.2.1 ⊆ res.2.1 ∧
      (res.1 = false → res.2.2.1 = R.erase (identity m) ∧
        res.2.2.2.1 = cn ∧ res.2.2.2.2 = ce) ∧
      (res.1 = true → (∃ s, res.2.2.2.1 = cn ++ m :: s) ∧
        ∃ s, res.2.2.2.2 = ce ++ s)) :
    ∀ es V R cn ce res,
      cycEdges identity compare dfs node es V R cn ce = some res → R ⊆ V →
      res.2.2.1 ⊆ res.2.1 ∧
      (res.1 = false → res.2.2.1 = R ∧ res.2.2.2.1 = cn ∧
        res.2.2.2.2 = ce) ∧
      (res.1 = true → (∃ s, res.2.2.2.1 = cn ++ s) ∧
        ∃ s, res.2.2.2.2 = ce ++ s) := by
  intro es
  induction es with
  | nil =>
    intro V R cn ce res h hRV
    simp only [cycEdges] at h
    cases h
    exact ⟨hRV, fun _ => ⟨rfl, rfl, rfl⟩, fun hb => by cases hb⟩
  | cons e rest ih =>
    intro V R cn ce res h hRV
    simp only [cycEdges] at h
    split at h
    · split at h
      · split at h
        · cases h
          refine ⟨hRV, ?_, ?_⟩
          · intro hb; cases hb
          · intro _
            exact ⟨⟨[], by simp⟩, ⟨[e], rfl⟩⟩
        · rw [List.dropLast_concat] at h
          exact ih _ _ _ _ res h hRV
      · rename_i hnv
        rcases hd : dfs e.tgt V R cn (ce ++ [e]) with
          _ | ⟨b2, v2, r2, cn2, ce2⟩
        · rw [hd] at h; cases h
        · rw [hd] at h
          have hmV : V ⊆ v2 := Hmono _ _ _ _ _ _ hd
          have hsub := Hdfs _ _ _ _ _ _ hd hRV
          cases b2
          · simp only [Bool.false_eq_true, if_false] at h
            obtain ⟨hr2, hcn2, hce2⟩ := hsub.2.1 rfl
            simp only at hr2 hcn2 hce2
            have hr2R : r2 = R := by
              rw [hr2, Finset.erase_eq_of_not_mem (fun hc => hnv (hRV hc))]
            rw [hr2R, hcn2, hce2, List.dropLast_concat] at h
            exact ih _ _ _ _ res h (hRV.trans hmV)
          · simp only [if_true] at h
            cases h
            obtain ⟨⟨s1, hs1⟩, ⟨s2, hs2⟩⟩ := hsub.2.2 rfl
            simp only at hs1 hs2
            refine ⟨hsub.1, ?_, ?_⟩
            · intro hb; cases hb
            · intro _
              refine ⟨⟨e.tgt :: s1, hs1⟩, ⟨[e] ++ s2, ?_⟩⟩
              simp only
              rw [hs2, List.append_assoc]
    · exact ih _ _ _ _ res h hRV

theorem cycDFS_inv (G : Graph Node) (identity : Node → NodeID)
    (compare : Node → Node → Int) :
    ∀ fuel n V R cn ce res,
      cycDFS G identity compare fuel n V R cn ce = some res → R ⊆ V →
      res.2.2.1 ⊆ res.2.1 ∧
      (res.1 = false → res.2.2.1 = R.erase (identity n) ∧
        res.2.2.2.1 = cn ∧ res.2.2.2.2 = ce) ∧
      (res.1 = true → (∃ s, res.2.2.2.1 = cn ++ n :: s) ∧
        ∃ s, res.2.2.2.2 = ce ++ s) := by
  intro fuel
  induction fuel with
  | zero => intro n V R cn ce res h; cases h
  | succ fuel ih =>
    intro n V R cn ce res h hRV
    simp only [cycDFS] at h
    rcases he : cycEdges identity compare (cycDFS G identity compare fuel) n
        G.edges (insert (identity n) V) (insert (identity n) R) (cn ++ [n])
        ce with _ | ⟨b2, v2, r2, cn2, ce2⟩
    · rw [he] at h; cases h
    · rw [he] at h
      have hinv := cycEdges_inv identity compare _ n
        (fun m V' R' cn' ce' res' h' =>
          (Finset.subset_insert _ _).trans
            (cycDFS_mono G identity compare fuel m V' R' cn' ce' res' h'))
        ih G.edges _ _ _ _ _ he (Finset.insert_subset_insert _ hRV)
      cases b2
      · simp only [Bool.false_eq_true, if_false] at h
        cases h
        obtain ⟨hr2, hcn2, hce2⟩ := hinv.2.1 rfl
        simp only at hr2 hcn2 hce2
        refine ⟨(Finset.erase_subset _ _).trans (hr2 ▸ hinv.1), ?_, ?_⟩
        · intro _
          refine ⟨?_, ?_, hce2⟩
          · rw [hr2, Finset.erase_insert_eq_erase]
          · rw [hcn2, List.dropLast_concat]
        · intro hb; cases hb
      · simp only [if_true] at h
        cases h
        obtain ⟨⟨s1, hs1⟩, hs2⟩ := hinv.2.2 rfl
        simp only at hs1
        refine ⟨hinv.1, ?_, ?_⟩
        · intro hb; cases hb
        · intro _
          refine ⟨⟨s1, ?_⟩, hs2⟩
          rw [hs1, List.append_assoc]
          rfl

theorem cycEdges_isSome (G : Graph Node) (identity : Node → NodeID)
    (compare : Node → Node → Int)
    (dfs : Node → Finset NodeID → Finset NodeID → List Node →
      List (Edge Node) →
      Option (Bool × Finset NodeID × Finset NodeID × List Node ×
        List (Edge Node)))
    (node : Node) (V0 : Finset NodeID)
    (Hmono : ∀ m V R cn ce res, dfs m V R cn ce = some res → V ⊆ res.2.1)
    (Hdfs : ∀ m V R cn ce, V0 ⊆ V → identity m ∉ V →
      (∃ e ∈ G.edges, e.tgt = m) → (dfs m V R cn ce).isSome) :
    ∀ es V R cn ce, (∀ e ∈ es, e ∈ G.edges) → V0 ⊆ V →
      (cycEdges identity compare dfs node es V R cn ce).isSome := by
  intro es
  induction es with
  | nil => intro V R cn ce _ _; simp [cycEdges]
  | cons e rest ih =>
    intro V R cn ce hes hV0
    have heG : e ∈ G.edges := hes e (List.mem_cons_self _ _)
    have hrest := fun e' he' => hes e' (List.mem_cons_of_mem _ he')
    simp only [cycEdges]
    split
    · split
      · split
        · simp
        · exact ih _ _ _ _ hrest hV0
      · rename_i hnv
        have hd := Hdfs e.tgt V R cn (ce ++ [e]) hV0 hnv ⟨e, heG, rfl⟩
        rcases hdd : dfs e.tgt V R cn (ce ++ [e]) with
          _ | ⟨b2, v2, r2, cn2, ce2⟩
        · rw [hdd] at hd; cases hd
        · have hmV : V ⊆ v2 := Hmono _ _ _ _ _ _ hdd
          cases b2
          · simp only [Bool.false_eq_true, if_false]
            exact ih _ _ _ _ hrest (hV0.trans hmV)
          · simp
    · exact ih _ _ _ _ hrest hV0

theorem cycDFS_isSome (G : Graph Node) (identity : Node → NodeID)
    (compare : Node → Node → Int) :
    ∀ fuel n V R cn ce,
      (allNodeIds G identity \ insert (identity n) V).card < fuel →
      (cycDFS G identity compare fuel n V R cn ce).isSome := by
  intro fuel
  induction fuel with
  | zero => intro n V R cn ce h; omega
  | succ fuel ih =>
    intro n V R cn ce hcard
    simp only [cycDFS]
    have hsome : (cycEdges identity compare (cycDFS G identity compare fuel) n
        G.edges (insert (identity n) V) (insert (identity n) R) (cn ++ [n])
        ce).isSome := by
      refine cycEdges_isSome G identity compare _ n (insert (identity n) V)
        (fun m V' R' cn' ce' res' h' =>
          (Finset.subset_insert _ _).trans
            (cycDFS_mono G identity compare fuel m V' R' cn' ce' res' h'))
        ?_ G.edges _ _ _ _ (fun e he => he) (Finset.Subset.refl _)
      intro m V' R' cn' ce' hVV' hm hedge
      refine ih m V' R' cn' ce' ?_
      have hmem : identity m ∈ allNodeIds G identity \ insert (identity n) V := by
        refine Finset.mem_sdiff.2 ⟨?_, fun hc => hm (hVV' hc)⟩
        obtain ⟨e, he, hem⟩ := hedge
        simp only [allNodeIds, List.mem_toFinset, List.mem_map]
        exact ⟨e.tgt, by
          simp only [List.mem_append, List.mem_map]
          exact Or.inr ⟨e, he, rfl⟩, by rw [hem]⟩
      have hsub : allNodeIds G identity \ insert (identity m) V' ⊆
          (allNodeIds G identity \ insert (identity n) V).erase (identity m) := by
        intro x hx
        have hx' := Finset.mem_sdiff.1 hx
        refine Finset.mem_erase.2 ⟨?_, Finset.mem_sdiff.2 ⟨hx'.1, ?_⟩⟩
        · intro hxm; exact hx'.2 (hxm ▸ Finset.mem_insert_self _ _)
        · intro hc; exact hx'.2 (Finset.mem_insert_of_mem (hVV' hc))
      have h1 := Finset.card_le_card hsub
      have h2 := Finset.card_erase_of_mem hmem
      have h3 : 0 < (allNodeIds G identity \ insert (identity n) V).card :=
        Finset.card_pos.2 ⟨_, hmem⟩
      omega
    rcases he : cycEdges identity compare (cycDFS G identity compare fuel) n
        G.edges (insert (identity n) V) (insert (identity n) R) (cn ++ [n])
        ce with _ | ⟨b2, v2, r2, cn2, ce2⟩
    · rw [he] at hsome; cases hsome
    · cases b2 <;> simp

theorem cycGo_isSome (G : Graph Node) (identity : Node → NodeID)
    (compare : Node → Node → Int) :
    ∀ ns V R acc, (cycGo G identity compare ns V R acc).isSome := by
  have hbound : ∀ (S : Finset NodeID),
      (allNodeIds G identity \ S).card < dfsFuel G := by
    intro S
    have h1 : (allNodeIds G identity \ S).card ≤ (allNodeIds G identity).card :=
      Finset.card_le_card (Finset.sdiff_subset)
    have h2 : (allNodeIds G identity).card ≤
        ((G.nodes ++ G.edges.map Edge.tgt).map identity).length :=
      List.toFinset_card_le _
    have h3 : ((G.nodes ++ G.edges.map Edge.tgt).map identity).length =
        G.nodes.length + G.edges.length := by simp
    simp only [dfsFuel]
    omega
  intro ns
  induction ns with
  | nil => intro V R acc; simp [cycGo]
  | cons n ns ih =>
    intro V R acc
    simp only [cycGo]
    split
    · exact ih V R acc
    · have hs := cycDFS_isSome G identity compare (dfsFuel G) n V R [] []
        (hbound _)
      rcases hd : cycDFS G identity compare (dfsFuel G) n V R [] [] with
        _ | ⟨b2, v2, r2, cn2, ce2⟩
      · rw [hd] at hs; cases hs
      · cases b2
        · simp only [Bool.false_eq_true, if_false]
          exact ih v2 r2 acc
        · simp only [if_true]
          exact ih v2 r2 (acc ++ [⟨cn2, ce2⟩])

theorem cycGo_length (G : Graph Node) (identity : Node → NodeID)
    (compare : Node → Node → Int) :
    ∀ ns V R acc res, cycGo G identity compare ns V R acc = some res →
      res.length ≤ acc.length + ns.length := by
  intro ns
  induction ns with
  | nil =>
    intro V R acc res h
    simp only [cycGo] at h
    cases h
    simp
  | cons n ns ih =>
    intro V R acc res h
    simp only [cycGo] at h
    split at h
    · have := ih _ _ _ _ h
      simp only [List.length_cons]
      omega
    · rcases hd : cycDFS G identity compare (dfsFuel G) n V R [] [] with
        _ | ⟨b2, v2, r2, cn2, ce2⟩
      · rw [hd] at h; cases h
      · rw [hd] at h
        cases b2
        · simp only [Bool.false_eq_true, if_false] at h
          have := ih _ _ _ _ h
          simp only [List.length_cons]
          omega
        · simp only [if_true] at h
          have := ih _ _ _ _ h
          simp only [List.length_append, List.length_cons, List.length_nil]
            at this
          simp only [List.length_cons]
          omega

theorem cycGo_acc_mem (G : Graph Node) (identity : Node → NodeID)
    (compare : Node → Node → Int) :
    ∀ ns V R acc res, cycGo G identity compare ns V R acc = some res →
      ∀ r ∈ acc, r ∈ res := by
  intro ns
  induction ns with
  | nil =>
    intro V R acc res h r hr
    simp only [cycGo] at h
    cases h
    exact hr
  | cons n ns ih =>
    intro V R acc res h r hr
    simp only [cycGo] at h
    split at h
    · exact ih _ _ _ _ h r hr
    · rcases hd : cycDFS G identity compare (dfsFuel G) n V R [] [] with
        _ | ⟨b2, v2, r2, cn2, ce2⟩
      · rw [hd] at h; cases h
      · rw [hd] at h
        cases b2
        · simp only [Bool.false_eq_true, if_false] at h
          exact ih _ _ _ _ h r hr
        · simp only [if_true] at h
          exact ih _ _ _ _ h r (List.mem_append_left _ hr)


/-! ## Self-loops force a `true` answer -/

theorem cycEdges_selfloop (identity : Node → NodeID)
    (compare : Node → Node → Int)
    (dfs : Node → Finset NodeID → Finset NodeID → List Node →
      List (Edge Node) →
      Option (Bool × Finset NodeID × Finset NodeID × List Node ×
        List (Edge Node)))
    (node : Node) (e0 : Edge Node)
    (Hmono : ∀ m V R cn ce res, dfs m V R cn ce = some res → V ⊆ res.2.1)
    (Hinv : ∀ m V R cn ce res, dfs m V R cn ce = some res → R ⊆ V →
      res.2.2.1 ⊆ res.2.1 ∧
      (res.1 = false → res.2.2.1 = R.erase (identity m) ∧
        res.2.2.2.1 = cn ∧ res.2.2.2.2 = ce) ∧
      (res.1 = true → (∃ s, res.2.2.2.1 = cn ++ m :: s) ∧
        ∃ s, res.2.2.2.2 = ce ++ s)) :
    ∀ es V R cn ce res, e0 ∈ es → compare e0.frm node = 0 →
      identity e0.tgt ∈ V → identity e0.tgt ∈ R → R ⊆ V →
      cycEdges identity compare dfs node es V R cn ce = some res →
      res.1 = true := by
  intro es
  induction es with
  | nil => intro V R cn ce res hm; cases hm
  | cons e rest ih =>
    intro V R cn ce res hm hcmp0 hvV hrR hRV h
    simp only [cycEdges] at h
    rcases List.mem_cons.1 hm with he0e | hm'
    · subst he0e
      rw [if_pos hcmp0, if_pos hvV, if_pos hrR] at h
      cases h
      rfl
    · split at h
      · split at h
        · split at h
          · cases h; rfl
          · exact ih _ _ _ _ res hm' hcmp0 hvV hrR hRV h
        · rename_i hnv
          rcases hd : dfs e.tgt V R cn (ce ++ [e]) with
            _ | ⟨b2, v2, r2, cn2, ce2⟩
          · rw [hd] at h; cases h
          · rw [hd] at h
            have hmV : V ⊆ v2 := Hmono _ _ _ _ _ _ hd
            cases b2
            · simp only [Bool.false_eq_true, if_false] at h
              have hfp := (Hinv _ _ _ _ _ _ hd hRV).2.1 rfl
              have hfp1 : r2 = R.erase (identity e.tgt) := hfp.1
              have hr2R : r2 = R := by
                rw [hfp1, Finset.erase_eq_of_not_mem
                  (fun hc => hnv (hRV hc))]
              rw [hr2R] at h
              exact ih _ _ _ _ res hm' hcmp0 (hmV hvV) hrR
                (hRV.trans hmV) h
            · simp only [if_true] at h
              cases h; rfl
      · exact ih _ _ _ _ res hm' hcmp0 hvV hrR hRV h

theorem cycDFS_selfloop (G : Graph Node) (identity : Node → NodeID)
    (compare : Node → Node → Int)
    (Hcmp : ∀ a b, compare a b = 0 ↔ identity a = identity b)
    (e0 : Edge Node) (he0 : e0 ∈ G.edges)
    (hself : identity e0.frm = identity e0.tgt) :
    ∀ fuel x V R cn ce res, identity x = identity e0.frm → R ⊆ V →
      cycDFS G identity compare fuel x V R cn ce = some res →
      res.1 = true := by
  intro fuel x V R cn ce res hx hRV h
  cases fuel with
  | zero => cases h
  | succ fuel =>
    simp only [cycDFS] at h
    rcases he : cycEdges identity compare (cycDFS G identity compare fuel) x
        G.edges (insert (identity x) V) (insert (identity x) R) (cn ++ [x])
        ce with _ | ⟨b2, v2, r2, cn2, ce2⟩
    · rw [he] at h; cases h
    · rw [he] at h
      have hb2 : b2 = true := by
        refine cycEdges_selfloop identity compare _ x e0
          (fun m V' R' cn' ce' res' h' =>
            (Finset.subset_insert _ _).trans
              (cycDFS_mono G identity compare fuel m V' R' cn' ce' res' h'))
          (cycDFS_inv G identity compare fuel) G.edges _ _ _ _ _ he0
          ((Hcmp _ _).2 (hx.symm)) ?_ ?_
          (Finset.insert_subset_insert _ hRV) he
        · rw [← hself, ← hx]
          exact Finset.mem_insert_self _ _
        · rw [← hself, ← hx]
          exact Finset.mem_insert_self _ _
      subst hb2
      simp only [if_true] at h
      cases h
      rfl

theorem cycEdges_entered (identity : Node → NodeID)
    (compare : Node → Node → Int)
    (dfs : Node → Finset NodeID → Finset NodeID → List Node →
      List (Edge Node) →
      Option (Bool × Finset NodeID × Finset NodeID × List Node ×
        List (Edge Node)))
    (node : Node) (e0 : Edge Node)
    (HinjG : ∀ a b : Node, identity a = identity b → a = b)
    (Hmono : ∀ m V R cn ce res, dfs m V R cn ce = some res → V ⊆ res.2.1)
    (Hinv : ∀ m V R cn ce res, dfs m V R cn ce = some res → R ⊆ V →
      res.2.2.1 ⊆ res.2.1 ∧
      (res.1 = false → res.2.2.1 = R.erase (identity m) ∧
        res.2.2.2.1 = cn ∧ res.2.2.2.2 = ce) ∧
      (res.1 = true → (∃ s, res.2.2.2.1 = cn ++ m :: s) ∧
        ∃ s, res.2.2.2.2 = ce ++ s))
    (Hself : ∀ x V R cn ce res, identity x = identity e0.frm → R ⊆ V →
      dfs x V R cn ce = some res → res.1 = true)
    (Hent : ∀ x V R cn ce res, dfs x V R cn ce = some res → R ⊆ V →
      identity e0.frm ∉ V → identity e0.frm ∈ res.2.1 →
      res.1 = true ∧ e0.frm ∈ res.2.2.2.1) :
    ∀ es V R cn ce res,
      cycEdges identity compare dfs node es V R cn ce = some res → R ⊆ V →
      identity e0.frm ∉ V → identity e0.frm ∈ res.2.1 →
      res.1 = true ∧ e0.frm ∈ res.2.2.2.1 := by
  intro es
  induction es with
  | nil =>
    intro V R cn ce res h hRV hni hin
    simp only [cycEdges] at h
    cases h
    exact absurd hin hni
  | cons e rest ih =>
    intro V R cn ce res h hRV hni hin
    simp only [cycEdges] at h
    split at h
    · split at h
      · split at h
        · cases h; exact absurd hin hni
        · exact ih _ _ _ _ res h hRV hni hin
      · rename_i hnv
        rcases hd : dfs e.tgt V R cn (ce ++ [e]) with
          _ | ⟨b2, v2, r2, cn2, ce2⟩
        · rw [hd] at h; cases h
        · rw [hd] at h
          have hmV : V ⊆ v2 := Hmono _ _ _ _ _ _ hd
          by_cases hid : identity e.tgt = identity e0.frm
          · have htgt : e.tgt = e0.frm := HinjG _ _ hid
            have hb2 : b2 = true := Hself e.tgt _ _ _ _ _ hid hRV hd
            subst hb2
            simp only [if_true] at h
            cases h
            obtain ⟨⟨s1, hs1⟩, _⟩ := (Hinv _ _ _ _ _ _ hd hRV).2.2 rfl
            simp only at hs1
            refine ⟨rfl, ?_⟩
            simp only [hs1, ← htgt]
            simp
          · cases b2
            · simp only [Bool.false_eq_true, if_false] at h
              have hni2 : identity e0.frm ∉ v2 := by
                intro hc
                have := (Hent _ _ _ _ _ _ hd hRV hni hc).1
                cases this
              have hfp := (Hinv _ _ _ _ _ _ hd hRV).2.1 rfl
              have hfp1 : r2 = R.erase (identity e.tgt) := hfp.1
              have hr2R : r2 = R := by
                rw [hfp1, Finset.erase_eq_of_not_mem
                  (fun hc => hnv (hRV hc))]
              rw [hr2R] at h
              exact ih _ _ _ _ res h (hRV.trans hmV) hni2 hin
            · simp only [if_true] at h
              cases h
              exact Hent _ _ _ _ _ _ hd hRV hni hin
    · exact ih _ _ _ _ res h hRV hni hin

theorem cycDFS_entered (G : Graph Node) (identity : Node → NodeID)
    (compare : Node → Node → Int)
    (Hcmp : ∀ a b, compare a b = 0 ↔ identity a = identity b)
    (HinjG : ∀ a b : Node, identity a = identity b → a = b)
    (e0 : Edge Node) (he0 : e0 ∈ G.edges)
    (hself : identity e0.frm = identity e0.tgt) :
    ∀ fuel x V R cn ce res,
      cycDFS G identity compare fuel x V R cn ce = some res → R ⊆ V →
      identity e0.frm ∉ V → identity e0.frm ∈ res.2.1 →
      res.1 = true ∧ e0.frm ∈ res.2.2.2.1 := by
  intro fuel
  induction fuel with
  | zero => intro x V R cn ce res h; cases h
  | succ fuel ih =>
    intro x V R cn ce res h hRV hni hin
    by_cases hx : identity x = identity e0.frm
    · have hb := cycDFS_selfloop G identity compare Hcmp e0 he0 hself
        (fuel + 1) x V R cn ce res hx hRV h
      have hxf : x = e0.frm := HinjG _ _ hx
      obtain ⟨⟨s1, hs1⟩, _⟩ :=
        (cycDFS_inv G identity compare (fuel + 1) x V R cn ce res h
          hRV).2.2 hb
      refine ⟨hb, ?_⟩
      rw [hs1, ← hxf]
      simp
    · simp only [cycDFS] at h
      rcases he : cycEdges identity compare (cycDFS G identity compare fuel) x
          G.edges (insert (identity x) V) (insert (identity x) R)
          (cn ++ [x]) ce with _ | ⟨b2, v2, r2, cn2, ce2⟩
      · rw [he] at h; cases h
      · rw [he] at h
        have hni1 : identity e0.frm ∉ insert (identity x) V := by
          simp only [Finset.mem_insert]
          rintro (hc | hc)
          · exact hx hc.symm
          · exact hni hc
        cases b2
        · simp only [Bool.false_eq_true, if_false] at h
          cases h
          have hin2 : identity e0.frm ∈ v2 := hin
          have := (cycEdges_entered identity compare _ x e0 HinjG
            (fun m V' R' cn' ce' res' h' =>
              (Finset.subset_insert _ _).trans
                (cycDFS_mono G identity compare fuel m V' R' cn' ce' res' h'))
            (cycDFS_inv G identity compare fuel)
            (fun x' V' R' cn' ce' res' hx' hRV' h' =>
              cycDFS_selfloop G identity compare Hcmp e0 he0 hself fuel x' V'
                R' cn' ce' res' hx' hRV' h')
            ih G.edges _ _ _ _ _ he
            (Finset.insert_subset_insert _ hRV) hni1 hin2).1
          cases this
        · simp only [if_true] at h
          cases h
          exact cycEdges_entered identity compare _ x e0 HinjG
            (fun m V' R' cn' ce' res' h' =>
              (Finset.subset_insert _ _).trans
                (cycDFS_mono G identity compare fuel m V' R' cn' ce' res' h'))
            (cycDFS_inv G identity compare fuel)
            (fun x' V' R' cn' ce' res' hx' hRV' h' =>
              cycDFS_selfloop G identity compare Hcmp e0 he0 hself fuel x' V'
                R' cn' ce' res' hx' hRV' h')
            ih G.edges _ _ _ _ _ he
            (Finset.insert_subset_insert _ hRV) hni1 hin

theorem cycGo_selfloop (G : Graph Node) (identity : Node → NodeID)
    (compare : Node → Node → Int)
    (Hcmp : ∀ a b, compare a b = 0 ↔ identity a = identity b)
    (HinjG : ∀ a b : Node, identity a = identity b → a = b)
    (e0 : Edge Node) (he0 : e0 ∈ G.edges)
    (hself : identity e0.frm = identity e0.tgt) :
    ∀ ns V R acc res, cycGo G identity compare ns V R acc = some res →
      R ⊆ V → identity e0.frm ∉ V → e0.frm ∈ ns →
      ∃ r ∈ res, e0.frm ∈ r.cycleNodes := by
  intro ns
  induction ns with
  | nil => intro V R acc res _ _ _ hm; cases hm
  | cons n ns ih =>
    intro V R acc res h hRV hni hm
    simp only [cycGo] at h
    split at h
    · rename_i hnV
      have hne : n ≠ e0.frm := fun hc => hni (hc ▸ hnV)
      rcases List.mem_cons.1 hm with hm | hm
      · exact absurd hm.symm hne
      · exact ih _ _ _ _ h hRV hni hm
    · rename_i hnV
      rcases hd : cycDFS G identity compare (dfsFuel G) n V R [] [] with
        _ | ⟨b2, v2, r2, cn2, ce2⟩
      · rw [hd] at h; cases h
      · rw [hd] at h
        have hmono := cycDFS_mono G identity compare (dfsFuel G) n V R [] []
          _ hd
        cases b2
        · simp only [Bool.false_eq_true, if_false] at h
          have hne : n ≠ e0.frm := by
            intro hc
            have := cycDFS_selfloop G identity compare Hcmp e0 he0 hself
              (dfsFuel G) n V R [] [] _ (by rw [hc]) hRV hd
            cases this
          have hnv2 : identity e0.frm ∉ v2 := by
            intro hc
            have := (cycDFS_entered G identity compare Hcmp HinjG e0 he0
              hself (dfsFuel G) n V R [] [] _ hd hRV hni hc).1
            cases this
          have hm' : e0.frm ∈ ns := by
            rcases List.mem_cons.1 hm with hm | hm
            · exact absurd hm.symm hne
            · exact hm
          have hr2v2 : r2 ⊆ v2 :=
            (cycDFS_inv G identity compare (dfsFuel G) n V R [] [] _ hd
              hRV).1
          exact ih _ _ _ _ h hr2v2 hnv2 hm'
        · simp only [if_true] at h
          by_cases hv : identity e0.frm ∈ v2
          · have hmem := (cycDFS_entered G identity compare Hcmp HinjG e0
              he0 hself (dfsFuel G) n V R [] [] _ hd hRV hni hv).2
            refine ⟨⟨cn2, ce2⟩, ?_, hmem⟩
            exact cycGo_acc_mem G identity compare _ _ _ _ _ h _
              (List.mem_append_right _ (List.mem_singleton.2 rfl))
          · have hne : n ≠ e0.frm := by
              intro hc
              exact hv (hmono (hc ▸ Finset.mem_insert_self _ _))
            have hm' : e0.frm ∈ ns := by
              rcases List.mem_cons.1 hm with hm | hm
              · exact absurd hm.symm hne
              · exact hm
            have hr2v2 : r2 ⊆ v2 :=
              (cycDFS_inv G identity compare (dfsFuel G) n V R [] [] _ hd
                hRV).1
            exact ih _ _ _ _ h hr2v2 hv hm'


theorem dagDFSEdges_selfloop (identity : Node → NodeID)
    (compare : Node → Node → Int)
    (dfs : Node → Finset NodeID → Finset NodeID →
      Option (Bool × Finset NodeID × Finset NodeID))
    (node : Node) (e0 : Edge Node)
    (Hmono : ∀ m V R res, dfs m V R = some res → V ⊆ res.2.1)
    (Hrest : ∀ m V R res, dfs m V R = some res → R ⊆ V →
      res.2.2 ⊆ res.2.1 ∧ (res.1 = false → res.2.2 = R.erase (identity m))) :
    ∀ es V R res, e0 ∈ es → compare e0.frm node = 0 →
      identity e0.tgt ∈ V → identity e0.tgt ∈ R → R ⊆ V →
      dagDFSEdges identity compare dfs node es V R = some res →
      res.1 = true := by
  intro es
  induction es with
  | nil => intro V R res hm; cases hm
  | cons e rest ih =>
    intro V R res hm hcmp0 hvV hrR hRV h
    simp only [dagDFSEdges] at h
    rcases List.mem_cons.1 hm with he0e | hm'
    · subst he0e
      rw [if_pos hcmp0, if_pos hvV, if_pos hrR] at h
      cases h
      rfl
    · split at h
      · split at h
        · split at h
          · cases h; rfl
          · exact ih V R res hm' hcmp0 hvV hrR hRV h
        · rename_i hnv
          rcases hd : dfs e.tgt V R with _ | ⟨b2, v2, r2⟩
          · rw [hd] at h; cases h
          · rw [hd] at h
            have hmV : V ⊆ v2 := Hmono _ _ _ _ hd
            cases b2
            · simp only [Bool.false_eq_true, if_false] at h
              have hfp := (Hrest _ _ _ _ hd hRV).2 rfl
              have hfp1 : r2 = R.erase (identity e.tgt) := hfp
              have hr2R : r2 = R := by
                rw [hfp1, Finset.erase_eq_of_not_mem
                  (fun hc => hnv (hRV hc))]
              rw [hr2R] at h
              split at h
              · cases h; rfl
              · exact ih v2 R res hm' hcmp0 (hmV hvV) hrR
                  (hRV.trans hmV) h
            · simp only [if_true] at h
              cases h; rfl
      · exact ih V R res hm' hcmp0 hvV hrR hRV h

theorem dagDFS_selfloop (G : Graph Node) (identity : Node → NodeID)
    (compare : Node → Node → Int)
    (Hcmp : ∀ a b, compare a b = 0 ↔ identity a = identity b)
    (e0 : Edge Node) (he0 : e0 ∈ G.edges)
    (hself : identity e0.frm = identity e0.tgt) :
    ∀ fuel x V R res, identity x = identity e0.frm → R ⊆ V →
      dagDFS G identity compare fuel x V R = some res → res.1 = true := by
  intro fuel x V R res hx hRV h
  cases fuel with
  | zero => cases h
  | succ fuel =>
    simp only [dagDFS] at h
    refine dagDFSEdges_selfloop identity compare _ x e0
      (fun m V' R' res' h' => dagDFS_mono' G identity compare fuel m V' R' res' h')
      (fun m V' R' res' h' => dagDFS_restore G identity compare fuel m V' R' res' h')
      G.edges _ _ res he0 ((Hcmp _ _).2 hx.symm) ?_ ?_
      (Finset.insert_subset_insert _ hRV) h
    · rw [← hself, ← hx]
      exact Finset.mem_insert_self _ _
    · rw [← hself, ← hx]
      exact Finset.mem_insert_self _ _

theorem dagIsCyclicalGo_selfloop (G : Graph Node) (identity : Node → NodeID)
    (compare : Node → Node → Int)
    (Hcmp : ∀ a b, compare a b = 0 ↔ identity a = identity b)
    (e0 : Edge Node) (he0 : e0 ∈ G.edges)
    (hself : identity e0.frm = identity e0.tgt) :
    ∀ ns V b, e0.frm ∈ ns →
      dagIsCyclicalGo G identity compare ns V ∅ = some b → b = true := by
  intro ns
  induction ns with
  | nil => intro V b hm; cases hm
  | cons n ns ih =>
    intro V b hm h
    simp only [dagIsCyclicalGo] at h
    rcases hd : dagDFS G identity compare (dfsFuel G) n V ∅ with _ | ⟨b2, v2, r2⟩
    · rw [hd] at h; cases h
    · rw [hd] at h
      cases b2
      · simp only [Bool.false_eq_true, if_false] at h
        have hne : n ≠ e0.frm := by
          intro hc
          have := dagDFS_selfloop G identity compare Hcmp e0 he0 hself
            (dfsFuel G) n V ∅ _ (by rw [hc]) (Finset.empty_subset _) hd
          cases this
        have hm' : e0.frm ∈ ns := by
          rcases List.mem_cons.1 hm with hm | hm
          · exact absurd hm.symm hne
          · exact hm
        have hr2 : r2 = ∅ := by
          have h2 := (dagDFS_restore G identity compare _ _ _ _ _ hd
            (Finset.empty_subset _)).2 rfl
          simpa [Finset.erase_empty] using h2
        rw [hr2] at h
        exact ih v2 b hm' h
      · simp only [if_true] at h
        injection h with h
        exact h.symm

/-- Claim C6 (amended): a self-loop edge whose endpoint is a listed node
forces `dagIsCyclicalDFS` to return `true`, and `dagCyclesDFS` to report at
least one record whose `cycleNodes` contains that node.  (The self-loop edge
itself need not appear in any record's `cycleEdges`: a different back-edge
found first may be captured instead — see the counterexample.) -/
theorem dagCyclesDFS_selfloop_reports (G : Graph Node)
    (identity : Node → NodeID) (compare : Node → Node → Int)
    (HinjG : ∀ a b : Node, identity a = identity b → a = b)
    (Hcmp : ∀ a b, compare a b = 0 ↔ identity a = identity b)
    (e0 : Edge Node) (he0 : e0 ∈ G.edges)
    (hself : identity e0.frm = identity e0.tgt)
    (hmem : e0.frm ∈ G.nodes) :
    dagIsCyclicalDFS G identity compare = true ∧
    ∃ r ∈ dagCyclesDFS G identity compare, e0.frm ∈ r.cycleNodes := by
  constructor
  · have hsome := dagIsCyclicalGo_isSome G identity compare G.nodes ∅ ∅
    rcases hgo : dagIsCyclicalGo G identity compare G.nodes ∅ ∅ with _ | b
    · rw [hgo] at hsome; cases hsome
    · have hb := dagIsCyclicalGo_selfloop G identity compare Hcmp e0 he0
        hself G.nodes ∅ b hmem hgo
      subst hb
      simp [dagIsCyclicalDFS, hgo]
  · have hsome := cycGo_isSome G identity compare G.nodes ∅ ∅ []
    rcases hgo : cycGo G identity compare G.nodes ∅ ∅ [] with _ | res
    · rw [hgo] at hsome; cases hsome
    · have hrep := cycGo_selfloop G identity compare Hcmp HinjG e0 he0 hself
        G.nodes ∅ ∅ [] res hgo (Finset.Subset.refl _)
        (Finset.not_mem_empty _) hmem
      simpa [dagCyclesDFS, hgo] using hrep

/-- Counterexample for C6 as stated: in this graph the self-loop `20 → 20`
is listed, the identity is injective and the comparator consistent, yet no
record of `dagCyclesDFS` contains both node `20` and that edge (the cycle
`10 → 20 → 10` is captured first and root `20` is already visited). -/
theorem dagCyclesDFS_selfloop_cex :
    ¬ ∃ r, r ∈ dagCyclesDFS
        (⟨[10, 20], [⟨10, 20⟩, ⟨20, 10⟩, ⟨20, 20⟩]⟩ : Graph Nat)
        (fun n => n) (fun a b => (a : Int) - b) ∧
      (20 : Nat) ∈ r.cycleNodes ∧ (⟨20, 20⟩ : Edge Nat) ∈ r.cycleEdges := by
  decide

/-- Witness for C6 (amended) at the one-node self-loop graph. -/
theorem dagCyclesDFS_selfloop_reports_witness :
    dagIsCyclicalDFS (⟨[0], [⟨0, 0⟩]⟩ : Graph Nat) (fun n => n)
        (fun a b => (a : Int) - b) = true ∧
    ∃ r ∈ dagCyclesDFS (⟨[0], [⟨0, 0⟩]⟩ : Graph Nat) (fun n => n)
        (fun a b => (a : Int) - b), (0 : Nat) ∈ r.cycleNodes :=
  dagCyclesDFS_selfloop_reports (⟨[0], [⟨0, 0⟩]⟩ : Graph Nat) (fun n => n)
    (fun a b => (a : Int) - b) (fun a b h => h)
    (by intro a b; show (a : Int) - b = 0 ↔ a = b; omega) ⟨0, 0⟩
    (List.mem_singleton.2 rfl) rfl (by simp)

/-- Claim C5: `dagCyclesDFS` pushes at most one record per outer-loop root,
so it returns at most as many records as there are nodes. -/
theorem dagCyclesDFS_length_le (G : Graph Node) (identity : Node → NodeID)
    (compare : Node → Node → Int) :
    (dagCyclesDFS G identity compare).length ≤ G.nodes.length := by
  rcases hgo : cycGo G identity compare G.nodes ∅ ∅ [] with _ | res
  · simp [dagCyclesDFS, hgo]
  · have hlen := cycGo_length G identity compare G.nodes ∅ ∅ [] res hgo
    simp only [List.length_nil] at hlen
    simp only [dagCyclesDFS, hgo, Option.getD_some]
    omega

/-- Counterexample for C4 as stated: on a self-loop, the cycle is signalled
while the edge is still on `cycleEdges`; the function returns immediately
without popping, so the final `cycleEdges` is not the incoming one. -/
theorem cycEdges_pop_claim_cex :
    ¬ (∀ (G0 : Graph Nat) (fuel : Nat) (node : Nat) (e : Edge Nat)
        (V R : Finset Nat) (cn : List Nat) (ce : List (Edge Nat))
        (res : Bool × Finset Nat × Finset Nat × List Nat × List (Edge Nat)),
        (e.frm : Int) - node = 0 →
        cycEdges (fun n : Nat => n) (fun (a b : Nat) => (a : Int) - b)
          (cycDFS G0 (fun n : Nat => n) (fun (a b : Nat) => (a : Int) - b)
            fuel) node [e] V R cn ce = some res →
        res.2.2.2.2 = ce) := by
  intro hclaim
  have hcex := hclaim ⟨[0], [⟨0, 0⟩]⟩ 1 0 ⟨0, 0⟩ {0} {0} [0] []
    (true, {0}, {0}, [0], [⟨0, 0⟩]) (by decide) (by rfl)
  simp at hcex

/-- Claim C4 (amended): the edge pushed for a neighbour is popped just after
exploring that neighbour when no cycle is signalled (state restored); when a
cycle is signalled the function returns immediately and the pushed edge
remains on `cycleEdges`. -/
theorem cycEdges_pop_amended (G : Graph Node) (identity : Node → NodeID)
    (compare : Node → Node → Int) (fuel : Nat) (node : Node) (e : Edge Node)
    (V R : Finset NodeID) (cn : List Node) (ce : List (Edge Node))
    (res : Bool × Finset NodeID × Finset NodeID × List Node ×
      List (Edge Node))
    (hRV : R ⊆ V)
    (h : cycEdges identity compare (cycDFS G identity compare fuel) node [e]
      V R cn ce = some res) :
    (res.1 = false → res.2.2.2.2 = ce ∧ res.2.2.2.1 = cn) ∧
    (res.1 = true → ∃ s, res.2.2.2.2 = ce ++ e :: s) := by
  have hinv := cycEdges_inv identity compare _ node
    (fun m V' R' cn' ce' res' h' =>
      (Finset.subset_insert _ _).trans
        (cycDFS_mono G identity compare fuel m V' R' cn' ce' res' h'))
    (cycDFS_inv G identity compare fuel) [e] V R cn ce res h hRV
  refine ⟨fun hb => ⟨(hinv.2.1 hb).2.2, (hinv.2.1 hb).2.1⟩, fun hb => ?_⟩
  simp only [cycEdges] at h
  split at h
  · split at h
    · split at h
      · cases h
        exact ⟨[], rfl⟩
      · cases h
        cases hb
    · rcases hd : cycDFS G identity compare fuel e.tgt V R cn (ce ++ [e])
        with _ | ⟨b2, v2, r2, cn2, ce2⟩
      · rw [hd] at h; cases h
      · rw [hd] at h
        cases b2
        · simp only [Bool.false_eq_true, if_false, cycEdges] at h
          cases h
          cases hb
        · simp only [if_true] at h
          cases h
          obtain ⟨_, ⟨s2, hs2⟩⟩ :=
            (cycDFS_inv G identity compare fuel _ _ _ _ _ _ hd hRV).2.2 rfl
          refine ⟨s2, ?_⟩
          show ce2 = ce ++ e :: s2
          have hs2' : ce2 = (ce ++ [e]) ++ s2 := hs2
          rw [hs2', List.append_assoc]
          rfl
  · cases h
    cases hb

/-- Witness for C4 (amended) at the same self-loop instance. -/
theorem cycEdges_pop_amended_witness :
    ∃ s, ([⟨0, 0⟩] : List (Edge Nat)) = [] ++ ⟨0, 0⟩ :: s :=
  (cycEdges_pop_amended (⟨[0], [⟨0, 0⟩]⟩ : Graph Nat) (fun n => n)
    (fun a b => (a : Int) - b) 1 0 ⟨0, 0⟩ {0} {0} [0] []
    (true, {0}, {0}, [0], [⟨0, 0⟩]) (by decide) (by rfl)).2 rfl


/-- Separator-prefixed join: the tail part of `String.intercalate`. -/
def sepJoin (s : String) : List String → String
  | [] => ""
  | a :: as => s ++ a ++ sepJoin s as

theorem intercalate_go_eq (s : String) :
    ∀ (l : List String) (acc : String),
      String.intercalate.go acc s l = acc ++ sepJoin s l := by
  intro l
  induction l with
  | nil => intro acc; simp [String.intercalate.go, sepJoin]
  | cons a as ih =>
    intro acc
    simp only [String.intercalate.go, sepJoin, ih, String.append_assoc]

theorem intercalate_cons (s a : String) (as : List String) :
    String.intercalate s (a :: as) = a ++ sepJoin s as := by
  simp only [String.intercalate]
  exact intercalate_go_eq s as a

theorem sepJoin_append (s : String) (l1 l2 : List String) :
    sepJoin s (l1 ++ l2) = sepJoin s l1 ++ sepJoin s l2 := by
  induction l1 with
  | nil => simp [sepJoin]
  | cons a as ih => simp [sepJoin, ih, String.append_assoc]

/-- Claim C8: on the 2-node, 1-edge graph with labels A, B and no features,
`graphPlantUmlDiagram` returns exactly
`"@startuml\nA\nB\nA --> B\n@enduml"`; in general (for nonempty node and
edge lists) the diagram is the newline-join of `@startuml`, then all node
lines in input order, then all edge lines in input order, then `@enduml`. -/
theorem graphPlantUmlDiagram_spec :
    graphPlantUmlDiagram (⟨[0, 1], [⟨0, 1⟩]⟩ : Graph Nat)
        (fun n => ⟨if n = 0 then "A" else "B", none⟩)
        (fun _ => ⟨"A", "B", none⟩) = "@startuml\nA\nB\nA --> B\n@enduml" ∧
    ∀ (G : Graph Node) (nodeFn : Node → PumlNode)
      (edgeFn : Edge Node → PumlEdge),
      G.nodes ≠ [] → G.edges ≠ [] →
      graphPlantUmlDiagram G nodeFn edgeFn =
        String.intercalate "\n"
          ("@startuml" ::
            ((G.nodes.map fun n =>
              (nodeFn n).text ++ featSuffix (nodeFn n).features) ++
            ((G.edges.map fun e =>
              (edgeFn e).fromText ++ " --> " ++ (edgeFn e).toText ++
                featSuffix (edgeFn e).features) ++ ["@enduml"]))) := by
  constructor
  · rfl
  · intro G nodeFn edgeFn hn he
    obtain ⟨n0, ns, hns⟩ := List.exists_cons_of_ne_nil hn
    obtain ⟨e0, es, hes⟩ := List.exists_cons_of_ne_nil he
    have h1 : ("@startuml\n" : String) = "@startuml" ++ "\n" := rfl
    have h2 : ("\n@enduml" : String) = "\n" ++ "@enduml" := rfl
    simp only [graphPlantUmlDiagram, hns, hes, List.map_cons, List.cons_append,
      intercalate_cons, sepJoin_append, sepJoin, String.append_empty,
      String.append_assoc, h1, h2]

/-- Witness for C8's general conjunct at the same concrete graph. -/
theorem graphPlantUmlDiagram_spec_witness :
    graphPlantUmlDiagram (⟨[0, 1], [⟨0, 1⟩]⟩ : Graph Nat)
        (fun n => ⟨if n = 0 then "A" else "B", none⟩)
        (fun _ => ⟨"A", "B", none⟩) =
      String.intercalate "\n" ["@startuml", "A", "B", "A --> B", "@enduml"] := by
  have h := graphPlantUmlDiagram_spec.2 (⟨[0, 1], [⟨0, 1⟩]⟩ : Graph Nat)
    (fun n => ⟨if n = 0 then "A" else "B", none⟩) (fun _ => ⟨"A", "B", none⟩)
    (by decide) (by decide)
  rw [h]
  rfl

end GraphLib
